import Mathlib

/-!
# Verification of the smart-dict core (compressed code trie, decoder, reverse index, encoder)

Shallow embedding of `src/trie.rs` and `src/rev_dict.rs`.

Modelling conventions:
* Rust code strings are handled byte-by-byte by the source (`CodeCursor` indexes
  `as_bytes()`), so a `Code` is a `List Nat` of byte values.
* Words are only compared for equality and concatenated into the output, so a
  `Word` is a `List Char` (the scalar values of the Rust `String`).
* The Rust trie links children through a `HashMap` whose iteration order is
  unspecified; the model keeps children in a `List` in insertion order, with
  `linkSet` reproducing `HashMap::insert` semantics (replace the entry with an
  equal key, otherwise add).  The `parent` back-pointers of the source are
  represented implicitly: a node's full code is the path of `code` fields from
  the root, which is what `full_code`/`full_code_len` compute by walking
  parents.
* The decoder loop `Trie::eval` re-walks from the root while the cursor is
  mutated in place; the model passes the remaining cursor explicitly and uses
  explicit fuel, because the Rust loop is not structurally recursive (and, as
  proved below, genuinely diverges on some inputs).
* `usize` arithmetic is modelled by `Nat`: all quantities are lengths of the
  inputs, so no overflow wrap is reachable.
-/

namespace SmartDict

abbrev Code := List Nat

abbrev Word := List Char

/-- One node of the compressed trie (`struct Trie` in `src/trie.rs`):
`code` is the edge label from the parent (`code`), `words` the candidate words
ending exactly here (`words`), `links` the children (`links: HashMap<Code, Self>`,
kept here as a list in insertion order). -/
inductive Trie where
  | mk (code : Code) (words : List Word) (links : List Trie)

instance : Inhabited Trie := ⟨.mk [] [] []⟩

def Trie.code : Trie → Code
  | .mk c _ _ => c

def Trie.words : Trie → List Word
  | .mk _ w _ => w

def Trie.links : Trie → List Trie
  | .mk _ _ l => l

/-- `Trie::is_leaf`. -/
def Trie.isLeaf (t : Trie) : Bool := t.links.isEmpty

/-- `Trie::new` / `Default::default()`: the empty root. -/
def Trie.empty : Trie := .mk [] [] []

/-- `HashMap::insert` keyed by the child's `code`: replace the entry with the
same key if present, otherwise add (`Trie::set_half_link`). -/
def linkSet : List Trie → Trie → List Trie
  | [], c => [c]
  | t :: ts, c => if t.code = c.code then c :: ts else t :: linkSet ts c

/-- `Trie::poll`: number of leading bytes of the node's segment that match the
cursor (the cursor is then advanced by that amount, modelled by `List.drop`). -/
def pollLen : Code → Code → Nat
  | [], _ => 0
  | _ :: _, [] => 0
  | a :: as, b :: bs => if a = b then pollLen as bs + 1 else 0

/-- `Trie::candidates`: the node's own words followed by all words of each
direct child (one level, in child order). -/
def Trie.candidates (t : Trie) : List Word :=
  t.words ++ t.links.flatMap Trie.words

mutual
/-- `Trie::deepest_full_code`: starting at `t`, repeatedly move into a child
whose whole segment is the next part of the cursor, consuming it; stop when the
cursor is exhausted or no child matches.  Returns the node reached, the
remaining cursor, and whether any descent happened (the source distinguishes
the no-descent case by pointer equality with the root). -/
def Trie.deepestFullCode (t : Trie) (cursor : Code) : Trie × Code × Bool :=
  match t with
  | .mk c w l => deepestAux (.mk c w l) l cursor

def deepestAux (t : Trie) (l : List Trie) (cursor : Code) : Trie × Code × Bool :=
  match l with
  | [] => (t, cursor, false)
  | ch :: rest =>
    if ch.code.isPrefixOf cursor then
      let r := cursor.drop ch.code.length
      if r.isEmpty then (ch, r, true)
      else
        let out := ch.deepestFullCode r
        (out.1, out.2.1, true)
    else deepestAux t rest cursor
end

/-- The four-way action of `Trie::insert` once the walk has stopped at a node
with `matched` bytes of its segment consumed and `remaining` input left:
append the word, split keeping the word, attach a leaf child, or split and
attach a second leaf child. -/
def doInsert (t : Trie) (matched : Nat) (remaining : Code) (w : Word) : Trie :=
  match t with
  | .mk c ws l =>
    if remaining.isEmpty then
      if matched = c.length then .mk c (ws ++ [w]) l
      else .mk (c.take matched) [w] [.mk (c.drop matched) ws l]
    else
      if matched = c.length then .mk c ws (linkSet l (.mk remaining [w] []))
      else
        .mk (c.take matched) []
          (linkSet [Trie.mk (c.drop matched) ws l] (.mk remaining [w] []))

/-- Replace the first child satisfying `p` by its image under `f`
(used for the in-place mutation of the child found by `try_best_to_match`). -/
def replaceFirstBy (p : Trie → Bool) (f : Trie → Trie) : List Trie → Option (List Trie)
  | [] => none
  | t :: ts => if p t then some (f t :: ts) else (replaceFirstBy p f ts).map (t :: ·)

mutual
/-- `Trie::insert`, fused with the walk of `try_best_to_match`:
`insertScan` performs the full-segment descents of `deepest_full_code`
(mutating the child it descends into); on `none` the walk has stopped at `t`
and the `child(ch)`-or-scan step plus the action table of `insert` applies. -/
def Trie.insert (t : Trie) (cursor : Code) (w : Word) : Trie :=
  match t with
  | .mk c ws l =>
    match insertScan l cursor w with
    | some l2 => .mk c ws l2
    | none =>
      match cursor with
      | [] => .mk c (ws ++ [w]) l
      | b :: _ =>
        let upd := fun ch =>
          doInsert ch (pollLen ch.code cursor) (cursor.drop (pollLen ch.code cursor)) w
        match replaceFirstBy (fun ch => ch.code = [b]) upd l with
        | some l2 => .mk c ws l2
        | none =>
          match replaceFirstBy (fun ch => ch.code.head? = some b) upd l with
          | some l2 => .mk c ws l2
          | none => .mk c ws (linkSet l (.mk cursor [w] []))

def insertScan (l : List Trie) (cursor : Code) (w : Word) : Option (List Trie) :=
  match l with
  | [] => none
  | ch :: rest =>
    if ch.code.isPrefixOf cursor then
      let r := cursor.drop ch.code.length
      if r.isEmpty then
        some ((doInsert ch ch.code.length [] w) :: rest)
      else
        some ((ch.insert r w) :: rest)
    else (insertScan rest cursor w).map (ch :: ·)
end

/-- Building a trie from a list of `(code, word)` dictionary entries by
repeated insertion (`Extend<Entry> for Trie`). -/
def buildTrie (es : List (Code × Word)) : Trie :=
  es.foldl (fun t e => t.insert e.1 e.2) Trie.empty

/-- The selector interpretation of the lookahead byte in `Trie::eval`:
`' '` picks index 0, `'\''` index 1, a digit `'1'..'9'` index digit−1;
anything else is not a selector. -/
def selectIndex (b : Nat) : Option Nat :=
  if b = 32 then some 0
  else if b = 39 then some 1
  else if 49 ≤ b ∧ b ≤ 57 then some (b - 49)
  else none

/-- A byte echoed literally by the decoder: Rust's `byte as char` is the
Latin-1 reinterpretation, code point = byte value. -/
def byteChar (b : Nat) : Char := Char.ofNat b

/-- The loop of `Trie::eval`, with explicit fuel (one unit per iteration) and
the output vector accumulated in `acc`; `none` means the fuel ran out.
Each iteration re-walks from the root over the unconsumed cursor exactly as
the source does. -/
def evalLoop (root : Trie) : Nat → Code → List Word → Option (List Word)
  | 0, _, _ => none
  | fuel + 1, cursor, acc =>
    match root.deepestFullCode cursor with
    | (n, cur, mv) =>
      match n.words.head? with
      | none =>
        match cur with
        | [] => some acc
        | b :: rest => evalLoop root fuel rest (acc ++ [[byteChar b]])
      | some fw =>
        match cur with
        | [] => some (acc ++ [fw])
        | b :: rest =>
          if n.words.length = 1 ∧ n.isLeaf then
            evalLoop root fuel cur (acc ++ [fw])
          else
            match selectIndex b with
            | none => evalLoop root fuel cur (acc ++ [fw])
            | some sel =>
              if mv then
                match n.candidates[sel]? with
                | some cw => evalLoop root fuel rest (acc ++ [cw])
                | none => evalLoop root fuel rest (acc ++ [fw, [byteChar b]])
              else
                evalLoop root fuel rest (acc ++ [[byteChar b]])

/-- `Trie::eval`: run the loop with fuel `|code| + 1` (shown sufficient for
every trie whose root carries no words) and join the output strings. -/
def Trie.eval (t : Trie) (code : Code) : Option (List Char) :=
  (evalLoop t (code.length + 1) code []).map List.flatten

/-! ## Reverse index (`src/rev_dict.rs`) -/

/-- `struct Info`: the full code found for a word and the node it was found in.
The source stores a borrowed `&Trie`; the model stores the subtree value. -/
structure Info where
  fullCode : Code
  node : Trie

/-- `struct RevDict`: the word → `Info` map (a `HashMap` in the source,
an association list with at most one binding per key here) plus the trie it
was built from. -/
structure RevDict where
  map : List (Word × Info)
  trie : Trie

/-- `HashMap::get`. -/
def lookupW : List (Word × Info) → Word → Option Info
  | [], _ => none
  | (w0, i0) :: rest, w => if w0 = w then some i0 else lookupW rest w

/-- `HashMap::insert`: replace the binding of an existing key, else add. -/
def mapSet : List (Word × Info) → Word → Info → List (Word × Info)
  | [], w, i => [(w, i)]
  | (w0, i0) :: rest, w, i =>
    if w0 = w then (w0, i) :: rest else (w0, i0) :: mapSet rest w i

/-- The `Some` branch of `RevDict::insert_if_shorter`: through `get_mut` only
the stored *code* is replaced when the new node's full code is shorter — the
stored node is left untouched (this is the divergence checked by claim C2). -/
def updateCodeIfShorter : List (Word × Info) → Word → Code → List (Word × Info)
  | [], _, _ => []
  | (w0, i0) :: rest, w, full =>
    if w0 = w then
      (w0, if full.length < i0.fullCode.length then ⟨full, i0.node⟩ else i0) :: rest
    else (w0, i0) :: updateCodeIfShorter rest w full

/-- `RevDict::insert_if_shorter` for a word found in node `n` whose full code
is `full` (the source computes `full_code()`/`full_code_len()` by walking
parent pointers; the model receives the root-to-node path code directly). -/
def insertIfShorter (m : List (Word × Info)) (w : Word) (full : Code) (n : Trie) :
    List (Word × Info) :=
  match lookupW m w with
  | none => mapSet m w ⟨full, n⟩
  | some _ => updateCodeIfShorter m w full

mutual
/-- The `Nodes` iterator of the source paired with each node's full code:
a stack-based depth-first preorder that visits the children of every node in
reverse link order (pushing `children()` and popping from the top). -/
def Trie.nodesFrom (t : Trie) (pfx : Code) : List (Code × Trie) :=
  match t with
  | .mk c ws l => (pfx ++ c, .mk c ws l) :: nodesFromL l (pfx ++ c)

def nodesFromL (l : List Trie) (pfx : Code) : List (Code × Trie) :=
  match l with
  | [] => []
  | ch :: rest => nodesFromL rest pfx ++ ch.nodesFrom pfx
end

/-- `Trie::rev_dict`: fold `insert_if_shorter` over every word of every node in
traversal order. -/
def Trie.revDict (t : Trie) : RevDict :=
  ⟨(t.nodesFrom []).foldl
      (fun m p => p.2.words.foldl (fun m w => insertIfShorter m w p.1 p.2) m) [],
    t⟩

/-- The only exposed query of the reverse index: word → shortest code found. -/
def RevDict.get (rd : RevDict) (w : Word) : Option Code :=
  (lookupW rd.map w).map Info.fullCode

/-! ## Shortest-encoding DP (`RevDict::shortest`) -/

/-- `struct State` of `RevDict::shortest`: the fragment committed for the final
segment (possibly prefixed by a disambiguating space), the predecessor
position, the accumulated cost, the node realizing the segment, and the
stored word range (char indices into the sentence; the source stores byte
indices over the same boundaries). -/
structure DPState where
  code : Code
  prev : Nat
  sumLen : Nat
  node : Trie
  range : Nat × Nat

/-- The initial `dp[0]` state. -/
def baseState (rd : RevDict) : DPState := ⟨[], 0, 0, rd.trie, (0, 0)⟩

/-- `&sentence[a..b]` at char boundaries. -/
def slice (s : List Char) (a b : Nat) : Word := (s.take b).drop a

/-- The `prefix_blank` condition of `RevDict::shortest`: the previous state's
word is the first of the previous node's candidates with a further candidate
present, and some direct child's segment is a literal prefix of the new code. -/
def prefixBlank (prevNode : Trie) (prevWord : Word) (revCode : Code) : Bool :=
  (match prevNode.candidates with
   | [] => false
   | f :: rest => f = prevWord && !rest.isEmpty)
  && prevNode.links.any (fun ch => ch.code.isPrefixOf revCode)

/-- The candidate a single `left_char_index` iteration offers:
fragment code, predecessor, new cost, and node. -/
structure Cand where
  code : Code
  prev : Nat
  sumLen : Nat
  node : Trie

/-- One iteration of the inner `left_char_index` loop: look the word up, apply
the space rule against `dp[left]`, and keep the candidate on a strictly
smaller cost (the first hit always replaces the `usize::MAX` initialisation).
The second component threads the loop-local `word_range` variable, which the
source reassigns on *every* iteration, hit or miss, before the dictionary
check — so the value pushed into the state is the one from `left = right`,
not the chosen candidate's range. -/
def scanStep (rd : RevDict) (s : List Char) (dp : List DPState) (right : Nat)
    (acc : Option Cand × (Nat × Nat)) (left : Nat) : Option Cand × (Nat × Nat) :=
  let range := (left, right + 1)
  match lookupW rd.map (slice s left (right + 1)) with
  | none => (acc.1, range)
  | some info =>
    let prevState := dp.getD left (baseState rd)
    let blank := prefixBlank prevState.node (slice s prevState.range.1 prevState.range.2)
      info.fullCode
    let newLen := prevState.sumLen + info.fullCode.length + (if blank then 1 else 0)
    let cand : Cand :=
      ⟨(if blank then [32] else []) ++ info.fullCode, left, newLen, info.node⟩
    match acc.1 with
    | none => (some cand, range)
    | some b => (if newLen < b.sumLen then some cand else some b, range)

/-- The whole inner loop for one `right_char_index`. -/
def scanLefts (rd : RevDict) (s : List Char) (dp : List DPState) (right : Nat) :
    Option Cand × (Nat × Nat) :=
  (List.range (right + 1)).foldl (scanStep rd s dp right) (none, (0, 0))

/-- The outer `right_char_index` loop of `RevDict::shortest`, recursing over the
remaining characters (`rest = s.drop right`): either extend the table by one
state or fail with the current scalar value and its 0-based index. -/
def dpLoop (rd : RevDict) (s : List Char) :
    List Char → Nat → List DPState → Except (Char × Nat) (List DPState)
  | [], _, dp => .ok dp
  | c :: rest, right, dp =>
    match scanLefts rd s dp right with
    | (some cand, range) =>
      dpLoop rd s rest (right + 1)
        (dp ++ [⟨cand.code, cand.prev, cand.sumLen, cand.node, range⟩])
    | (none, _) => .error (c, right)

/-- The DP phase of `RevDict::shortest`: the filled table or the error. -/
def shortestDP (rd : RevDict) (s : List Char) : Except (Char × Nat) (List DPState) :=
  dpLoop rd s s 0 [baseState rd]

/-- The backtracking loop of `RevDict::shortest`: push the state's fragment,
stop as soon as `prev == 0`, else move to `dp[prev]`.  The source's loop has no
fuel; `dp.length` steps suffice because `prev` strictly decreases in every
table the DP builds. -/
def backtrackFrom (dp : List DPState) : Nat → Nat → List Code
  | 0, _ => []
  | fuel + 1, i =>
    match dp[i]? with
    | none => []
    | some st => st.code :: (if st.prev = 0 then [] else backtrackFrom dp fuel st.prev)

/-- `RevDict::shortest`: run the DP, then collect — a trailing selector space
first when the final node is still ambiguous, then the fragments along the
predecessor chain, all reversed into left-to-right order. -/
def RevDict.shortest (rd : RevDict) (s : List Char) : Except (Char × Nat) (List Code) :=
  match shortestDP rd s with
  | .error e => .error e
  | .ok dp =>
    let last := dp.getLast?.getD (baseState rd)
    let pre : List Code :=
      if 1 < last.node.words.length || !last.node.isLeaf then [[32]] else []
    .ok ((pre ++ backtrackFrom dp dp.length (dp.length - 1)).reverse)

/-! ## Structural well-formedness

Every trie the source can build satisfies: each edge label is nonempty, and
the edge labels of any two siblings start with different bytes (so siblings
are prefix-free and the walk is deterministic).  `goodT`/`goodL` state this
recursively; insertion preserves it. -/

mutual
def Trie.goodT : Trie → Bool
  | .mk _ _ l => goodL l

def goodL : List Trie → Bool
  | [] => true
  | t :: ts =>
    !t.code.isEmpty && t.goodT && ts.all (fun u => u.code.head? != t.code.head?) && goodL ts
end

/-! ## Words reachable under a full code

`wordsAt t c` collects the words of every node whose root-to-node edge-label
concatenation (the node's *full code*, which `Trie::full_code` reconstructs by
walking parents) equals `c`: the word list of `t` itself when `c` is empty,
plus, for every child whose segment is a prefix of `c`, the words at the
remaining path inside that child. -/

mutual
def Trie.wordsAt (t : Trie) (c : Code) : List Word :=
  match t with
  | .mk _ ws l => (if c.isEmpty then ws else []) ++ wordsAtL l c

def wordsAtL (l : List Trie) (c : Code) : List Word :=
  match l with
  | [] => []
  | ch :: rest =>
    (if ch.code.isPrefixOf c then ch.wordsAt (c.drop ch.code.length) else []) ++ wordsAtL rest c
end

/-- The contribution of a single child to `wordsAtL`. -/
def contribAt (ch : Trie) (q : Code) : List Word :=
  if ch.code.isPrefixOf q then ch.wordsAt (q.drop ch.code.length) else []

/-- The UTF-8 encoding of a Unicode scalar value (this is how the Rust
`&str` input of `eval` stores a character; `CodeCursor` then iterates these
bytes one at a time). -/
def utf8Bytes (v : Nat) : List Nat :=
  if v < 128 then [v]
  else if v < 2048 then [192 + v / 64, 128 + v % 64]
  else if v < 65536 then [224 + v / 4096, 128 + (v / 64) % 64, 128 + v % 64]
  else [240 + v / 262144, 128 + (v / 4096) % 64, 128 + (v / 64) % 64, 128 + v % 64]

/-- The candidate list as claim C3 words it: the node's own words followed by
each direct child's FIRST word only.  (Second definition following the claim's
words, for comparison with the source's `candidates`, which chains ALL words
of each child.) -/
def claimedCandidates (t : Trie) : List Word :=
  t.words ++ t.links.filterMap (fun ch => ch.words.head?)

/-- End position `m` of `s` is reachable by some dictionary word. -/
def covB (rd : RevDict) (s : List Char) (m : Nat) : Bool :=
  (List.range m).any (fun j => (lookupW rd.map (slice s j m)).isSome)

/-- All decompositions of a sentence into nonempty contiguous pieces; fuel at
least the sentence length makes the enumeration complete. -/
def splitsF : Nat → List Char → List (List Word)
  | _, [] => [[]]
  | 0, _ :: _ => []
  | fuel + 1, c :: cs =>
    (List.range (cs.length + 1)).flatMap (fun j =>
      (splitsF fuel (cs.drop j)).map (fun seg => (c :: cs.take j) :: seg))

/-- Modelled from the spec: the cost of one segmentation — each word's
ReverseIndex code length, plus one for every transition where the local
disambiguation rule, evaluated with the *genuinely committed* predecessor
word, requires a space; `none` when a piece is not a dictionary word. -/
def segSpecCost (rd : RevDict) : Trie → Word → List Word → Option Nat
  | _, _, [] => some 0
  | prevNode, prevWord, w :: restW =>
    match lookupW rd.map w with
    | none => none
    | some info =>
      let blank := prefixBlank prevNode prevWord info.fullCode
      (segSpecCost rd info.node w restW).map
        (fun c => info.fullCode.length + (if blank then 1 else 0) + c)

/-- The minimum of a list of costs, `none` when there is none. -/
def minCosts : List Nat → Option Nat
  | [] => none
  | x :: xs => some (xs.foldl Nat.min x)

/-- Modelled from the spec: the true minimum, over all segmentations of the
sentence into dictionary words, of the spec's segmentation cost. -/
def specMinCost (rd : RevDict) (s : List Char) : Option Nat :=
  minCosts ((splitsF s.length s).filterMap (fun seg => segSpecCost rd rd.trie [] seg))

/-- The final DP cost `dp[n].sum_len` when `shortest`'s table fills. -/
def dpFinalCost (rd : RevDict) (s : List Char) : Option Nat :=
  match shortestDP rd s with
  | .ok dp => dp.getLast?.map DPState.sumLen
  | .error _ => none

theorem goodT_mk (c : Code) (ws : List Word) (l : List Trie) :
    (Trie.mk c ws l).goodT = goodL l := rfl

theorem goodT_links (t : Trie) : t.goodT = goodL t.links := by
  cases t; rfl

theorem goodL_cons {t : Trie} {ts : List Trie} :
    goodL (t :: ts) = true ↔
      t.code ≠ [] ∧ t.goodT = true ∧
      (∀ u ∈ ts, u.code.head? ≠ t.code.head?) ∧ goodL ts = true := by
  simp [goodL, List.all_eq_true, List.isEmpty_iff, bne_iff_ne]
  tauto

theorem goodL_mem : ∀ {l : List Trie}, goodL l = true →
    ∀ {ch : Trie}, ch ∈ l → ch.goodT = true ∧ ch.code ≠ [] := by
  intro l
  induction l with
  | nil => intro _ ch hm; cases hm
  | cons t ts ih =>
    intro hl ch hm
    rcases goodL_cons.1 hl with ⟨h1, h2, _, h4⟩
    rcases List.mem_cons.1 hm with hm | hm
    · subst hm; exact ⟨h2, h1⟩
    · exact ih h4 hm

/-! ## `pollLen` lemmas -/

theorem pollLen_le_left : ∀ a b : Code, pollLen a b ≤ a.length := by
  intro a
  induction a with
  | nil => intro b; simp [pollLen]
  | cons x xs ih =>
    intro b
    cases b with
    | nil => simp [pollLen]
    | cons y ys =>
      by_cases h : x = y
      · simpa [pollLen, h] using ih ys
      · simp [pollLen, h]

theorem pollLen_le_right : ∀ a b : Code, pollLen a b ≤ b.length := by
  intro a
  induction a with
  | nil => intro b; simp [pollLen]
  | cons x xs ih =>
    intro b
    cases b with
    | nil => simp [pollLen]
    | cons y ys =>
      by_cases h : x = y
      · simpa [pollLen, h] using ih ys
      · simp [pollLen, h]

theorem pollLen_eq_left_iff : ∀ a b : Code, pollLen a b = a.length ↔ a.isPrefixOf b = true := by
  intro a
  induction a with
  | nil => intro b; simp [pollLen, List.isPrefixOf]
  | cons x xs ih =>
    intro b
    cases b with
    | nil =>
      simp [pollLen, List.isPrefixOf]
    | cons y ys =>
      by_cases h : x = y
      · subst h
        have hp : pollLen (x :: xs) (x :: ys) = pollLen xs ys + 1 := by simp [pollLen]
        rw [hp]
        simp only [List.isPrefixOf, beq_self_eq_true, Bool.true_and, List.length_cons,
          Nat.add_right_cancel_iff]
        exact ih ys
      · have hb : (x == y) = false := beq_false_of_ne h
        simp only [pollLen, if_neg h, List.isPrefixOf, hb, Bool.false_and, List.length_cons]
        constructor
        · intro hh; omega
        · intro hh; cases hh

theorem pollLen_take : ∀ a b : Code, a.take (pollLen a b) = b.take (pollLen a b) := by
  intro a
  induction a with
  | nil => intro b; simp [pollLen]
  | cons x xs ih =>
    intro b
    cases b with
    | nil => simp [pollLen]
    | cons y ys =>
      by_cases h : x = y
      · subst h
        have hp : pollLen (x :: xs) (x :: ys) = pollLen xs ys + 1 := by simp [pollLen]
        rw [hp]
        simp only [List.take_succ_cons, List.cons.injEq, true_and]
        exact ih ys
      · simp [pollLen, h]

theorem pollLen_pos {a b : Code} {x : Nat} (ha : a.head? = some x) (hb : b.head? = some x) :
    0 < pollLen a b := by
  cases a with
  | nil => simp at ha
  | cons a0 as =>
    cases b with
    | nil => simp at hb
    | cons b0 bs =>
      simp at ha hb
      subst ha; subst hb
      simp [pollLen]

theorem pollLen_stop : ∀ a b : Code, pollLen a b < a.length → pollLen a b < b.length →
    a[pollLen a b]? ≠ b[pollLen a b]? := by
  intro a
  induction a with
  | nil => intro b h _; simp [pollLen] at h
  | cons x xs ih =>
    intro b h1 h2
    cases b with
    | nil => simp [pollLen] at h2
    | cons y ys =>
      by_cases h : x = y
      · simp only [pollLen, if_pos h, List.length_cons, List.getElem?_cons_succ] at h1 h2 ⊢
        exact ih ys (by omega) (by omega)
      · simp only [pollLen, if_neg h, List.getElem?_cons_zero] at h1 h2 ⊢
        simpa using h

theorem head?_take {l : Code} {n : Nat} (h : 0 < n) : (l.take n).head? = l.head? := by
  cases l with
  | nil => simp
  | cons x xs => cases n with
    | zero => omega
    | succ m => simp

/-! ## `insertScan` / `replaceFirstBy` / `linkSet` lemmas -/

theorem insertScan_eq_none : ∀ {l : List Trie} {cursor : Code} {w : Word},
    insertScan l cursor w = none ↔ ∀ ch ∈ l, ch.code.isPrefixOf cursor = false := by
  intro l
  induction l with
  | nil => intro cursor w; simp [insertScan]
  | cons ch rest ih =>
    intro cursor w
    by_cases h : ch.code.isPrefixOf cursor = true
    · constructor
      · intro hnone
        exfalso
        by_cases hr : (cursor.drop ch.code.length).isEmpty = true <;>
          simp [insertScan, h, hr] at hnone
      · intro hall
        have := hall ch (by simp)
        rw [h] at this
        cases this
    · have hfalse : ch.code.isPrefixOf cursor = false := by
        cases hx : ch.code.isPrefixOf cursor
        · rfl
        · exact absurd hx h
      constructor
      · intro hnone
        intro u hu
        rcases List.mem_cons.1 hu with hu | hu
        · subst hu; exact hfalse
        · simp [insertScan, hfalse] at hnone
          exact ih.1 hnone u hu
      · intro hall
        simp [insertScan, hfalse]
        exact ih.2 (fun u hu => hall u (by simp [hu]))

theorem replaceFirstBy_none {p : Trie → Bool} {f : Trie → Trie} :
    ∀ {l : List Trie}, replaceFirstBy p f l = none ↔ ∀ x ∈ l, p x = false := by
  intro l
  induction l with
  | nil => simp [replaceFirstBy]
  | cons t ts ih =>
    by_cases h : p t
    · simp [replaceFirstBy, h]
    · have hf : p t = false := by cases hx : p t; rfl; exact absurd hx h
      simp [replaceFirstBy, hf]
      exact ih

theorem replaceFirstBy_some {p : Trie → Bool} {f : Trie → Trie} :
    ∀ {l l2 : List Trie}, replaceFirstBy p f l = some l2 →
      ∃ l1 x l3, l = l1 ++ x :: l3 ∧ p x = true ∧ l2 = l1 ++ f x :: l3 := by
  intro l
  induction l with
  | nil => intro l2 h; simp [replaceFirstBy] at h
  | cons t ts ih =>
    intro l2 h
    by_cases hp : p t
    · simp [replaceFirstBy, hp] at h
      exact ⟨[], t, ts, by simp, hp, by simp [← h]⟩
    · have hf : p t = false := by cases hx : p t; rfl; exact absurd hx hp
      cases hrec : replaceFirstBy p f ts with
      | none => simp [replaceFirstBy, hf, hrec] at h
      | some l2a =>
        simp [replaceFirstBy, hf, hrec] at h
        rcases ih hrec with ⟨l1, x, l3, rfl, hx, hl2a⟩
        exact ⟨t :: l1, x, l3, by simp, hx, by rw [← h, hl2a]; simp⟩

theorem linkSet_no_key : ∀ {l : List Trie} {c : Trie},
    (∀ u ∈ l, u.code ≠ c.code) → linkSet l c = l ++ [c] := by
  intro l
  induction l with
  | nil => intro c _; simp [linkSet]
  | cons t ts ih =>
    intro c h
    have : t.code ≠ c.code := h t (by simp)
    simp [linkSet, this]
    exact ih (fun u hu => h u (by simp [hu]))

theorem goodL_append_iff : ∀ {l1 l2 : List Trie},
    goodL (l1 ++ l2) = true ↔
      goodL l1 = true ∧ goodL l2 = true ∧
      (∀ u ∈ l2, ∀ v ∈ l1, u.code.head? ≠ v.code.head?) := by
  intro l1
  induction l1 with
  | nil => intro l2; simp [goodL]
  | cons t ts ih =>
    intro l2
    constructor
    · intro h
      rcases goodL_cons.1 h with ⟨h1, h2, h3, h4⟩
      rcases ih.1 h4 with ⟨g1, g2, g3⟩
      refine ⟨goodL_cons.2 ⟨h1, h2, fun u hu => h3 u (by simp [hu]), g1⟩, g2, ?_⟩
      intro u hu v hv
      rcases List.mem_cons.1 hv with hv | hv
      · subst hv; exact h3 u (by simp [hu])
      · exact g3 u hu v hv
    · rintro ⟨g1, g2, g3⟩
      rcases goodL_cons.1 g1 with ⟨h1, h2, h3, h4⟩
      refine goodL_cons.2 ⟨h1, h2, ?_, ih.2 ⟨h4, g2, fun u hu v hv => g3 u hu v (by simp [hv])⟩⟩
      intro u hu
      rcases List.mem_append.1 hu with hu | hu
      · exact h3 u hu
      · exact g3 u hu t (by simp)

theorem goodL_replace {l1 l3 : List Trie} {x y : Trie}
    (h : goodL (l1 ++ x :: l3) = true)
    (hgy : y.goodT = true) (hny : y.code ≠ []) (hhy : y.code.head? = x.code.head?) :
    goodL (l1 ++ y :: l3) = true := by
  rcases goodL_append_iff.1 h with ⟨g1, g2, g3⟩
  rcases goodL_cons.1 g2 with ⟨_, _, h3, h4⟩
  refine goodL_append_iff.2 ⟨g1, goodL_cons.2 ⟨hny, hgy, fun u hu => by
    rw [hhy]; exact h3 u hu, h4⟩, ?_⟩
  intro u hu v hv
  rcases List.mem_cons.1 hu with hu | hu
  · subst hu; rw [hhy]; exact g3 x (by simp) v hv
  · exact g3 u (by simp [hu]) v hv

/-! ## Insertion preserves well-formedness -/

theorem doInsert_push (ch : Trie) (w : Word) :
    doInsert ch ch.code.length [] w = .mk ch.code (ch.words ++ [w]) ch.links := by
  cases ch; simp [doInsert, Trie.code, Trie.words, Trie.links]

theorem doInsert_split_keep (cc : Code) (ws2 : List Word) (l2 : List Trie) (m : Nat) (w : Word)
    (hm : m ≠ cc.length) :
    doInsert (.mk cc ws2 l2) m [] w = .mk (cc.take m) [w] [.mk (cc.drop m) ws2 l2] := by
  simp [doInsert, hm]

theorem doInsert_split_two (cc : Code) (ws2 : List Word) (l2 : List Trie) (m : Nat) (rem : Code)
    (w : Word) (hrem : rem ≠ []) (hm : m ≠ cc.length) :
    doInsert (.mk cc ws2 l2) m rem w =
      .mk (cc.take m) [] (linkSet [Trie.mk (cc.drop m) ws2 l2] (.mk rem [w] [])) := by
  cases rem with
  | nil => cases hrem rfl
  | cons r0 rs => simp [doInsert, hm]

theorem doInsert_good {ch : Trie} {b : Nat} {tail : Code} {w : Word}
    (hg : ch.goodT = true) (hhead : ch.code.head? = some b)
    (hnp : ch.code.isPrefixOf (b :: tail) = false) :
    (doInsert ch (pollLen ch.code (b :: tail))
        ((b :: tail).drop (pollLen ch.code (b :: tail))) w).goodT = true ∧
    (doInsert ch (pollLen ch.code (b :: tail))
        ((b :: tail).drop (pollLen ch.code (b :: tail))) w).code.head? = ch.code.head? := by
  obtain ⟨cc, ws2, l2⟩ := ch
  simp only [Trie.code] at hhead hnp ⊢
  simp only [goodT_mk] at hg
  set m := pollLen cc (b :: tail) with hmdef
  have hm1 : 0 < m := pollLen_pos hhead (by simp)
  have hmle : m ≤ cc.length := pollLen_le_left cc (b :: tail)
  have hm2 : m < cc.length := by
    rcases Nat.lt_or_ge m cc.length with h | h
    · exact h
    · exfalso
      have : m = cc.length := le_antisymm hmle h
      rw [pollLen_eq_left_iff] at this
      rw [this] at hnp
      cases hnp
  have hne : m ≠ cc.length := Nat.ne_of_lt hm2
  have htake : (cc.take m).head? = cc.head? := head?_take hm1
  have htakene : cc.take m ≠ [] := by
    rw [Ne, List.take_eq_nil_iff]
    rintro (h | h)
    · omega
    · subst h; simp at hhead
  cases hrem : (b :: tail).drop m with
  | nil =>
    rw [doInsert_split_keep cc ws2 l2 m w hne]
    refine ⟨?_, by simpa [Trie.code] using htake⟩
    rw [goodT_mk]
    refine goodL_cons.2 ⟨?_, by simpa [goodT_mk] using hg, by simp, rfl⟩
    simp only [Trie.code, Ne, List.drop_eq_nil_iff]
    omega
  | cons r0 rs =>
    rw [doInsert_split_two cc ws2 l2 m (r0 :: rs) w (by simp) hne]
    have hm3 : m < (b :: tail).length := by
      by_contra hcon
      rw [List.drop_eq_nil_of_le (by omega)] at hrem
      cases hrem
    have hstop : cc[m]? ≠ (b :: tail)[m]? := pollLen_stop cc (b :: tail) hm2 hm3
    have hhd1 : (cc.drop m).head? = cc[m]? := List.head?_drop cc m
    have hhd2 : ((b :: tail).drop m).head? = (b :: tail)[m]? := List.head?_drop (b :: tail) m
    have hcodes : cc.drop m ≠ r0 :: rs := by
      intro hcon
      apply hstop
      rw [← hhd1, ← hhd2, hrem, hcon]
    have hlink : linkSet [Trie.mk (cc.drop m) ws2 l2] (.mk (r0 :: rs) [w] []) =
        [Trie.mk (cc.drop m) ws2 l2, .mk (r0 :: rs) [w] []] := by
      simp [linkSet, Trie.code, hcodes]
    rw [hlink]
    refine ⟨?_, by simpa [Trie.code] using htake⟩
    rw [goodT_mk]
    refine goodL_cons.2 ⟨?_, by simpa [goodT_mk] using hg, ?_, ?_⟩
    · simp only [Trie.code, Ne, List.drop_eq_nil_iff]; omega
    · intro u hu
      rcases List.mem_cons.1 hu with hu | hu
      · subst hu
        simp only [Trie.code]
        rw [hhd1, ← hrem, hhd2]
        intro hcon
        exact hstop hcon.symm
      · cases hu
    · exact goodL_cons.2 ⟨by simp [Trie.code], by simp [Trie.goodT, goodL], by simp, rfl⟩

theorem insert_good : ∀ (t : Trie) (cursor : Code) (w : Word), t.goodT = true →
    (t.insert cursor w).goodT = true ∧ (t.insert cursor w).code = t.code := by
  refine Trie.insert.induct
    (fun t cursor w => t.goodT = true →
      (t.insert cursor w).goodT = true ∧ (t.insert cursor w).code = t.code)
    (fun l cursor w => goodL l = true →
      ∀ l2, insertScan l cursor w = some l2 →
        goodL l2 = true ∧ l2.map Trie.code = l.map Trie.code)
    ?_ ?_ ?_ ?_ ?_ ?_ ?_ ?_ ?_
  · -- insertScan found a full-prefix child
    intro cursor w c words links l2 hscan ih hg
    rw [goodT_mk] at hg
    simp only [Trie.insert, hscan]
    exact ⟨(ih hg l2 hscan).1, rfl⟩
  · -- empty cursor at the stopped node: append the word
    intro w c words links hscan _ hg
    simp only [Trie.insert, hscan]
    exact ⟨hg, rfl⟩
  · -- exact one-byte key lookup succeeded: impossible, such a child is a full prefix
    intro w c words links b tail l2 hscan upd hex _ hg
    exfalso
    rcases replaceFirstBy_some hex with ⟨l1, x, l3, hsplit, hpx, _⟩
    have hx : x.code = [b] := of_decide_eq_true hpx
    have hmem : x ∈ links := by rw [hsplit]; simp
    have := insertScan_eq_none.1 hscan x hmem
    rw [hx] at this
    simp [List.isPrefixOf] at this
  · -- partial child found by first byte: split it
    intro w c words links b tail l2 hscan upd hex hhd ih hg
    rw [goodT_mk] at hg
    simp only [Trie.insert, hscan, hex, hhd]
    refine ⟨?_, rfl⟩
    rw [goodT_mk]
    rcases replaceFirstBy_some hhd with ⟨l1, x, l3, hsplit, hpx, hl2⟩
    have hx : x.code.head? = some b := of_decide_eq_true hpx
    have hmem : x ∈ links := by rw [hsplit]; simp
    have hnp := insertScan_eq_none.1 hscan x hmem
    rcases goodL_mem (by rw [hsplit] at hg; exact hg) (show x ∈ l1 ++ x :: l3 by simp) with
      ⟨hgx, _⟩
    have hd := doInsert_good (w := w) hgx hx hnp
    have hhead2 : (upd x).code.head? = some b := by
      show (doInsert x (pollLen x.code (b :: tail))
        ((b :: tail).drop (pollLen x.code (b :: tail))) w).code.head? = some b
      rw [hd.2, hx]
    have hne2 : (upd x).code ≠ [] := by
      intro hcon
      rw [hcon] at hhead2
      cases hhead2
    rw [hsplit] at hg
    rw [hl2]
    refine goodL_replace hg hd.1 hne2 ?_
    rw [hhead2, hx]
  · -- no child shares the first byte: attach a fresh leaf child
    intro w c words links b tail hscan upd hex hhd _ hg
    rw [goodT_mk] at hg
    simp only [Trie.insert, hscan, hex, hhd]
    refine ⟨?_, rfl⟩
    rw [goodT_mk]
    have hnob : ∀ x ∈ links, x.code.head? ≠ some b := by
      intro x hx
      exact of_decide_eq_false (replaceFirstBy_none.1 hhd x hx)
    have hkey : ∀ u ∈ links, u.code ≠ (Trie.mk (b :: tail) [w] []).code := by
      intro u hu hcon
      apply hnob u hu
      rw [hcon]
      rfl
    rw [linkSet_no_key hkey]
    refine goodL_append_iff.2 ⟨hg, ?_, ?_⟩
    · exact goodL_cons.2 ⟨by simp [Trie.code], by simp [Trie.goodT, goodL], by simp, rfl⟩
    · intro u hu v hv
      rcases List.mem_cons.1 hu with hu | hu
      · subst hu
        simp only [Trie.code, List.head?_cons]
        exact fun hcon => hnob v hv hcon.symm
      · cases hu
  · -- insertScan on []
    intro cursor w _ l2 h
    simp [insertScan] at h
  · -- full-prefix child, cursor exhausted: push the word at that child
    intro cursor w ch rest hpre r hr hg l2 hsc
    simp only [insertScan, hpre, if_true] at hsc
    rw [if_pos hr] at hsc
    cases hsc
    rcases goodL_cons.1 hg with ⟨h1, h2, h3, h4⟩
    rw [doInsert_push]
    constructor
    · refine goodL_cons.2 ⟨by simpa [Trie.code] using h1, ?_, ?_, h4⟩
      · rw [goodT_mk, ← goodT_links]; exact h2
      · intro u hu; simpa [Trie.code] using h3 u hu
    · simp [Trie.code]
  · -- full-prefix child, cursor remains: recurse into the child
    intro cursor w ch rest hpre r hr ih hg l2 hsc
    simp only [insertScan, hpre, if_true] at hsc
    rw [if_neg hr] at hsc
    cases hsc
    rcases goodL_cons.1 hg with ⟨h1, h2, h3, h4⟩
    rcases ih h2 with ⟨hg2, hc2⟩
    constructor
    · refine goodL_cons.2 ⟨by rwa [hc2], hg2, ?_, h4⟩
      intro u hu; rw [hc2]; exact h3 u hu
    · simp [hc2]
  · -- child is not a prefix: keep it, recurse along the sibling list
    intro cursor w ch rest hpre ih hg l2 hsc
    have hpf : ch.code.isPrefixOf cursor = false := by
      cases hx : ch.code.isPrefixOf cursor
      · rfl
      · exact absurd hx hpre
    simp only [insertScan, hpf] at hsc
    cases hrec : insertScan rest cursor w with
    | none => rw [hrec] at hsc; cases hsc
    | some l2a =>
      rw [hrec] at hsc
      simp at hsc
      rcases goodL_cons.1 hg with ⟨h1, h2, h3, h4⟩
      rcases ih h4 l2a hrec with ⟨hga, hca⟩
      subst hsc
      constructor
      · refine goodL_cons.2 ⟨h1, h2, ?_, hga⟩
        intro u hu
        have : u.code ∈ l2a.map Trie.code := List.mem_map_of_mem Trie.code hu
        rw [hca] at this
        rcases List.mem_map.1 this with ⟨v, hv, hveq⟩
        rw [← hveq]
        exact h3 v hv
      · simp [hca]

theorem goodT_buildTrie (es : List (Code × Word)) : (buildTrie es).goodT = true := by
  suffices h : ∀ (es : List (Code × Word)) (t : Trie), t.goodT = true →
      (es.foldl (fun t e => t.insert e.1 e.2) t).goodT = true by
    exact h es Trie.empty (by simp [Trie.empty, Trie.goodT, goodL])
  intro es
  induction es with
  | nil => intro t h; simpa using h
  | cons e rest ih =>
    intro t h
    exact ih _ (insert_good t e.1 e.2 h).1

/-! ## Root words, walk lemmas, and decoder totality -/

theorem insert_keeps_words {c : Code} {ws : List Word} {l : List Trie} {cursor : Code} {w : Word}
    (h : cursor ≠ []) :
    ∃ l2, (Trie.mk c ws l).insert cursor w = .mk c ws l2 := by
  simp only [Trie.insert]
  split
  · exact ⟨_, rfl⟩
  · split
    · cases h rfl
    · split
      · exact ⟨_, rfl⟩
      · split
        · exact ⟨_, rfl⟩
        · exact ⟨_, rfl⟩

theorem buildTrie_words_nil (es : List (Code × Word)) (h : ∀ e ∈ es, e.1 ≠ []) :
    (buildTrie es).words = [] := by
  suffices h2 : ∀ (es : List (Code × Word)) (t : Trie), (∀ e ∈ es, e.1 ≠ []) →
      (es.foldl (fun t e => t.insert e.1 e.2) t).words = t.words by
    exact h2 es Trie.empty h
  intro es
  induction es with
  | nil => intro t _; rfl
  | cons e rest ih =>
    intro t hall
    obtain ⟨c, ws, l⟩ := t
    obtain ⟨l2, hl2⟩ := insert_keeps_words (l := l) (w := e.2) (hall e (by simp))
    have : (Trie.mk c ws l).insert e.1 e.2 = .mk c ws l2 := hl2
    simp only [List.foldl_cons, this]
    exact ih _ (fun u hu => hall u (by simp [hu]))

theorem deepestAux_no_match : ∀ (l : List Trie) (t : Trie) (cursor : Code),
    (∀ ch ∈ l, ch.code.isPrefixOf cursor = false) →
    deepestAux t l cursor = (t, cursor, false) := by
  intro l
  induction l with
  | nil => intro t cursor _; rfl
  | cons ch rest ih =>
    intro t cursor hall
    have h1 := hall ch (by simp)
    simp only [deepestAux, h1, Bool.false_eq_true, if_false]
    exact ih t cursor (fun u hu => hall u (by simp [hu]))

theorem dfc_no_match (t : Trie) (cursor : Code)
    (h : ∀ ch ∈ t.links, ch.code.isPrefixOf cursor = false) :
    t.deepestFullCode cursor = (t, cursor, false) := by
  obtain ⟨c, ws, l⟩ := t
  simp only [Trie.deepestFullCode]
  exact deepestAux_no_match l _ cursor h

/-- The walk only shortens the cursor; under well-formedness a descent consumes
at least one byte, and without a descent nothing changes at all.  The node
reached is itself well-formed. -/
theorem dfc_spec : ∀ (t : Trie) (cursor : Code), t.goodT = true →
    (t.deepestFullCode cursor).2.1.length ≤ cursor.length ∧
    ((t.deepestFullCode cursor).2.2 = true →
      (t.deepestFullCode cursor).2.1.length < cursor.length) ∧
    ((t.deepestFullCode cursor).2.2 = false →
      t.deepestFullCode cursor = (t, cursor, false)) ∧
    (t.deepestFullCode cursor).1.goodT = true := by
  refine Trie.deepestFullCode.induct
    (fun t cursor => t.goodT = true →
      (t.deepestFullCode cursor).2.1.length ≤ cursor.length ∧
      ((t.deepestFullCode cursor).2.2 = true →
        (t.deepestFullCode cursor).2.1.length < cursor.length) ∧
      ((t.deepestFullCode cursor).2.2 = false →
        t.deepestFullCode cursor = (t, cursor, false)) ∧
      (t.deepestFullCode cursor).1.goodT = true)
    (fun t l cursor => t.goodT = true → goodL l = true →
      (deepestAux t l cursor).2.1.length ≤ cursor.length ∧
      ((deepestAux t l cursor).2.2 = true →
        (deepestAux t l cursor).2.1.length < cursor.length) ∧
      ((deepestAux t l cursor).2.2 = false →
        deepestAux t l cursor = (t, cursor, false)) ∧
      (deepestAux t l cursor).1.goodT = true)
    ?_ ?_ ?_ ?_ ?_
  · intro cursor c words links ih hg
    simp only [Trie.deepestFullCode]
    exact ih hg (by rw [goodT_mk] at hg; exact hg)
  · intro t cursor hgt _
    refine ⟨by simp [deepestAux], by simp [deepestAux], by simp [deepestAux],
      by simpa [deepestAux] using hgt⟩
  · intro t cursor ch rest hpre r hr hgt hgl
    rcases goodL_cons.1 hgl with ⟨h1, h2, _, _⟩
    have hlen : ch.code.length ≤ cursor.length :=
      (List.isPrefixOf_iff_prefix.1 hpre).length_le
    have hpos : 0 < ch.code.length := List.length_pos.2 h1
    have hr2 : (cursor.drop ch.code.length).isEmpty = true := hr
    have hre : cursor.drop ch.code.length = [] := List.isEmpty_iff.1 hr2
    have hstep : deepestAux t (ch :: rest) cursor = (ch, [], true) := by
      simp [deepestAux, hpre, hre]
    rw [hstep]
    refine ⟨?_, ?_, ?_, ?_⟩
    · simp
    · intro _
      simp only [List.length_nil]
      omega
    · intro hcon
      simp at hcon
    · exact h2
  · intro t cursor ch rest hpre r hr ih hgt hgl
    rcases goodL_cons.1 hgl with ⟨h1, h2, _, _⟩
    have hlen : ch.code.length ≤ cursor.length :=
      (List.isPrefixOf_iff_prefix.1 hpre).length_le
    have hpos : 0 < ch.code.length := List.length_pos.2 h1
    have hr2 : (cursor.drop ch.code.length).isEmpty = false := by
      cases hx : (cursor.drop ch.code.length).isEmpty
      · rfl
      · exact absurd hx hr
    have hrlen : (cursor.drop ch.code.length).length < cursor.length := by
      simp only [List.length_drop]
      omega
    rcases ih h2 with ⟨i1, _, _, i4⟩
    have hstep : deepestAux t (ch :: rest) cursor =
        ((ch.deepestFullCode (cursor.drop ch.code.length)).1,
         (ch.deepestFullCode (cursor.drop ch.code.length)).2.1, true) := by
      simp [deepestAux, hpre, hr2]
    rw [hstep]
    refine ⟨?_, ?_, ?_, ?_⟩
    · exact le_trans i1 (le_of_lt hrlen)
    · intro _
      exact lt_of_le_of_lt i1 hrlen
    · intro hcon
      simp at hcon
    · exact i4
  · intro t cursor ch rest hpre ih hgt hgl
    rcases goodL_cons.1 hgl with ⟨_, _, _, h4⟩
    have hpf : ch.code.isPrefixOf cursor = false := by
      cases hx : ch.code.isPrefixOf cursor
      · rfl
      · exact absurd hx hpre
    have hstep : deepestAux t (ch :: rest) cursor = deepestAux t rest cursor := by
      simp [deepestAux, hpf]
    rw [hstep]
    exact ih hgt h4

/-- Every iteration of the decoder loop on a well-formed trie whose root holds
no words either terminates or strictly shortens the cursor, so fuel beyond the
cursor length never runs out. -/
theorem evalLoop_isSome (t : Trie) (hg : t.goodT = true) (hw : t.words = []) :
    ∀ (fuel : Nat) (cursor : Code) (acc : List Word), cursor.length < fuel →
      (evalLoop t fuel cursor acc).isSome = true := by
  intro fuel
  induction fuel with
  | zero => intro cursor acc h; omega
  | succ f ih =>
    intro cursor acc h
    rcases hdfc : t.deepestFullCode cursor with ⟨n, cur, mv⟩
    rcases dfc_spec t cursor hg with ⟨s1, s2, s3, _⟩
    rw [hdfc] at s1 s2 s3
    simp only at s1 s2 s3
    simp only [evalLoop, hdfc]
    cases hn : n.words.head? with
    | none =>
      cases cur with
      | nil => simp
      | cons b rest =>
        apply ih
        simp at s1
        omega
    | some fw =>
      cases cur with
      | nil => simp
      | cons b rest =>
        have hmv : mv = true := by
          by_contra hmv
          have hmvf : mv = false := by
            cases hx : mv
            · rfl
            · exact absurd hx hmv
          have heq := s3 hmvf
          have hnt : n = t := congrArg Prod.fst heq
          rw [hnt, hw] at hn
          cases hn
        have hcur : (b :: rest).length < cursor.length := s2 hmv
        simp only [List.length_cons] at hcur
        by_cases hone : n.words.length = 1 ∧ n.isLeaf
        · simp only [hone, if_true]
          exact ih _ _ (by simp only [List.length_cons]; omega)
        · simp only [hone, if_false]
          cases hsel : selectIndex b with
          | none => exact ih _ _ (by simp only [List.length_cons]; omega)
          | some sel =>
            rw [hmv]
            simp only [if_true]
            cases hcand : n.candidates[sel]? with
            | some cw => exact ih _ _ (by omega)
            | none => exact ih _ _ (by omega)

/-- Counterexample input for claim C1: inserting an empty code puts a word on
the root (sanctioned by the spec), after which the decoder's auto-commit
branch repeats forever on any unmatched input byte — no amount of fuel makes
`eval` return. -/
theorem eval_diverges_on_root_words :
    ¬ ∃ fuel : Nat, (evalLoop (buildTrie [([], [(' ' : Char)])]) fuel [120] []).isSome = true := by
  have hb : buildTrie [([], [(' ' : Char)])] = .mk [] [[(' ' : Char)]] [] := rfl
  have key : ∀ (fuel : Nat) (acc : List Word),
      evalLoop (.mk [] [[(' ' : Char)]] []) fuel [120] acc = none := by
    intro fuel
    induction fuel with
    | zero => intro acc; rfl
    | succ f ih =>
      intro acc
      have hstep : evalLoop (.mk [] [[(' ' : Char)]] []) (f + 1) [120] acc
          = evalLoop (.mk [] [[(' ' : Char)]] []) f [120] (acc ++ [[(' ' : Char)]]) := by
        simp [evalLoop, Trie.deepestFullCode, deepestAux, Trie.words, Trie.isLeaf, Trie.links]
      rw [hstep]
      exact ih _
  rintro ⟨fuel, hf⟩
  rw [hb, key fuel []] at hf
  cases hf

/-- C1, amended: the decoder is total on every trie built from inserts with
nonempty codes (fuel `|input| + 1` always suffices); with an empty-code insert
it can diverge, as `eval_diverges_on_root_words` shows. -/
theorem eval_total_of_nonempty_codes (es : List (Code × Word)) (code : Code)
    (h : ∀ e ∈ es, e.1 ≠ []) :
    ((buildTrie es).eval code).isSome = true := by
  have hs := evalLoop_isSome (buildTrie es) (goodT_buildTrie es) (buildTrie_words_nil es h)
    (code.length + 1) code [] (by omega)
  unfold Trie.eval
  cases hx : evalLoop (buildTrie es) (code.length + 1) code [] with
  | none => rw [hx] at hs; cases hs
  | some out => simp

theorem eval_total_of_nonempty_codes_witness :
    (∀ e ∈ [(([110] : Code), (['N'] : Word))], e.1 ≠ []) ∧
    ((buildTrie [([110], ['N'])]).eval [110, 120]).isSome = true :=
  ⟨by decide, eval_total_of_nonempty_codes [([110], ['N'])] [110, 120] (by decide)⟩

theorem wordsAt_mk (a : Code) (ws : List Word) (l : List Trie) (q : Code) :
    (Trie.mk a ws l).wordsAt q = (if q.isEmpty then ws else []) ++ wordsAtL l q := rfl

theorem wordsAtL_nil (q : Code) : wordsAtL [] q = [] := rfl

theorem wordsAtL_cons (ch : Trie) (rest : List Trie) (q : Code) :
    wordsAtL (ch :: rest) q = contribAt ch q ++ wordsAtL rest q := rfl

theorem wordsAtL_append : ∀ (a b : List Trie) (q : Code),
    wordsAtL (a ++ b) q = wordsAtL a q ++ wordsAtL b q := by
  intro a
  induction a with
  | nil => intro b q; simp [wordsAtL]
  | cons ch rest ih =>
    intro b q
    rw [List.cons_append, wordsAtL_cons, wordsAtL_cons, ih, List.append_assoc]

theorem prefix_eq_append {a q : Code} (h : a.isPrefixOf q = true) :
    q = a ++ q.drop a.length := by
  have hp := List.isPrefixOf_iff_prefix.1 h
  rcases hp with ⟨t, rfl⟩
  simp

theorem prefix_append_split (a b q : Code) :
    (a ++ b).isPrefixOf q = true ↔
      a.isPrefixOf q = true ∧ b.isPrefixOf (q.drop a.length) = true := by
  simp only [List.isPrefixOf_iff_prefix]
  constructor
  · rintro ⟨t, rfl⟩
    refine ⟨⟨b ++ t, by simp⟩, ?_⟩
    have : (a ++ b ++ t).drop a.length = b ++ t := by
      rw [List.append_assoc, List.drop_append_of_le_length (le_refl _)]
      simp
    rw [this]
    exact ⟨t, rfl⟩
  · rintro ⟨⟨t, rfl⟩, hb⟩
    have hdrop : (a ++ t).drop a.length = t := by
      rw [List.drop_append_of_le_length (le_refl _)]
      simp
    rw [hdrop] at hb
    rcases hb with ⟨u, rfl⟩
    exact ⟨u, by simp⟩

theorem eq_iff_prefix_drop_nil {a q : Code} :
    (a.isPrefixOf q = true ∧ q.drop a.length = []) ↔ q = a := by
  constructor
  · rintro ⟨h1, h2⟩
    have := prefix_eq_append h1
    rw [h2] at this
    simpa using this
  · rintro rfl
    constructor
    · rw [List.isPrefixOf_iff_prefix]
    · simp

theorem count_contrib_leaf (a : Code) (w : Word) (q : Code) (w2 : Word) :
    (contribAt (.mk a [w] []) q).count w2 =
      if q = a ∧ w2 = w then 1 else 0 := by
  unfold contribAt
  by_cases h : a.isPrefixOf q = true
  · simp only [Trie.code] at h ⊢
    rw [if_pos h, wordsAt_mk]
    by_cases h2 : q.drop a.length = []
    · have hq : q = a := eq_iff_prefix_drop_nil.1 ⟨h, h2⟩
      simp only [Trie.code, h2]
      by_cases h3 : w2 = w
      · subst h3
        simp [wordsAtL, hq, List.count_cons]
      · simp [wordsAtL, List.count_cons, hq, h3, Ne.symm h3]
    · have hq : q ≠ a := fun hcon => h2 (by subst hcon; simp)
      have : (q.drop a.length).isEmpty = false := by
        cases hx : (q.drop a.length).isEmpty
        · rfl
        · exact absurd (List.isEmpty_iff.1 hx) h2
      simp [wordsAtL, this, hq]
  · have hf : a.isPrefixOf q = false := by
      cases hx : a.isPrefixOf q
      · rfl
      · exact absurd hx h
    simp only [Trie.code, hf, Bool.false_eq_true, if_false, List.count_nil]
    have hq : q ≠ a := by
      rintro rfl
      rw [(List.isPrefixOf_iff_prefix).2 ⟨[], by simp⟩] at hf
      cases hf
    simp [hq]

theorem count_ite_single (hcond : Prop) [Decidable hcond] (w w2 : Word) :
    ((if hcond then [w] else []).count w2) = if hcond ∧ w2 = w then 1 else 0 := by
  by_cases h : hcond
  · by_cases h2 : w2 = w
    · subst h2; simp [h, List.count_cons]
    · simp [h, h2, List.count_cons, Ne.symm h2]
  · simp [h]

/-- Splitting a node relocates its words and children onto the spawned child
without changing any full code, and puts the new word exactly at the inserted
full code: the per-child contribution to `wordsAt` changes by exactly one
occurrence of `w` at path `b :: tail`. -/
theorem doInsert_count {cc : Code} {ws2 : List Word} {l2x : List Trie} {b : Nat} {tail : Code}
    {w : Word} (hhead : cc.head? = some b) (hnp : cc.isPrefixOf (b :: tail) = false)
    (q : Code) (w2 : Word) :
    (contribAt (doInsert (.mk cc ws2 l2x) (pollLen cc (b :: tail))
        ((b :: tail).drop (pollLen cc (b :: tail))) w) q).count w2 =
      (contribAt (.mk cc ws2 l2x) q).count w2 +
        (if q = b :: tail ∧ w2 = w then 1 else 0) := by
  set m := pollLen cc (b :: tail) with hm
  have hm1 : 0 < m := pollLen_pos hhead rfl
  have hmle : m ≤ cc.length := pollLen_le_left _ _
  have hm2 : m < cc.length := by
    rcases Nat.lt_or_ge m cc.length with h | h
    · exact h
    · exfalso
      have heq : m = cc.length := le_antisymm hmle h
      rw [pollLen_eq_left_iff] at heq
      rw [heq] at hnp
      cases hnp
  have hne : m ≠ cc.length := Nat.ne_of_lt hm2
  have htake : cc.take m = (b :: tail).take m := pollLen_take cc (b :: tail)
  have hlenTake : (cc.take m).length = m := by
    rw [List.length_take]; omega
  have hsplitcc : cc.take m ++ cc.drop m = cc := List.take_append_drop m cc
  have hccq : cc.isPrefixOf q = true ↔
      ((cc.take m).isPrefixOf q = true ∧ (cc.drop m).isPrefixOf (q.drop m) = true) := by
    conv_lhs => rw [← hsplitcc]
    rw [prefix_append_split, hlenTake]
  have hdropdrop : (q.drop m).drop (cc.drop m).length = q.drop cc.length := by
    rw [List.drop_drop, List.length_drop]
    congr 1
    omega
  have hwmk : ∀ x : Code, (Trie.mk (cc.drop m) ws2 l2x).wordsAt x =
      (Trie.mk cc ws2 l2x).wordsAt x := fun _ => rfl
  cases hrem : (b :: tail).drop m with
  | nil =>
    have h1 := List.take_append_drop m (b :: tail)
    rw [hrem, List.append_nil] at h1
    have hcur : (b :: tail) = cc.take m := by rw [htake]; exact h1.symm
    rw [doInsert_split_keep cc ws2 l2x m w hne]
    by_cases hpq : (cc.take m).isPrefixOf q = true
    · have hcceq : cc.isPrefixOf q = (cc.drop m).isPrefixOf (q.drop m) := by
        cases hx : (cc.drop m).isPrefixOf (q.drop m)
        · cases hy : cc.isPrefixOf q
          · rfl
          · exfalso
            have := (hccq.1 hy).2
            rw [hx] at this
            cases this
        · exact hccq.2 ⟨hpq, hx⟩
      have hL : (contribAt (.mk (cc.take m) [w] [.mk (cc.drop m) ws2 l2x]) q).count w2
          = (if q.drop m = [] ∧ w2 = w then 1 else 0)
            + (if (cc.drop m).isPrefixOf (q.drop m) = true then
                ((Trie.mk cc ws2 l2x).wordsAt (q.drop cc.length)).count w2 else 0) := by
        unfold contribAt
        simp only [Trie.code, hpq, if_true, hlenTake]
        rw [wordsAt_mk, List.count_append, wordsAtL_cons, wordsAtL_nil, List.append_nil]
        congr 1
        · by_cases hqe : List.drop m q = []
          · by_cases hw2 : w2 = w
            · subst hw2
              simp [hqe, List.count_cons]
            · simp [hqe, hw2, List.count_cons, Ne.symm hw2]
          · have hqef : (List.drop m q).isEmpty = false := by
              cases hx : (List.drop m q).isEmpty
              · rfl
              · exact absurd (List.isEmpty_iff.1 hx) hqe
            simp [hqef, hqe]
        · unfold contribAt
          by_cases hx : (cc.drop m).isPrefixOf (q.drop m) = true
          · simp only [Trie.code, hx, if_true]
            rw [hwmk, hdropdrop]
          · have hxf : (cc.drop m).isPrefixOf (q.drop m) = false := by
              cases hy : (cc.drop m).isPrefixOf (q.drop m)
              · rfl
              · exact absurd hy hx
            simp [Trie.code, hxf]
      have hR : (contribAt (.mk cc ws2 l2x) q).count w2
          = (if (cc.drop m).isPrefixOf (q.drop m) = true then
              ((Trie.mk cc ws2 l2x).wordsAt (q.drop cc.length)).count w2 else 0) := by
        unfold contribAt
        simp only [Trie.code, hcceq]
        by_cases hx : (cc.drop m).isPrefixOf (q.drop m) = true
        · simp [hx]
        · have hxf : (cc.drop m).isPrefixOf (q.drop m) = false := by
            cases hy : (cc.drop m).isPrefixOf (q.drop m)
            · rfl
            · exact absurd hy hx
          simp [hxf]
      have hIff : (q = b :: tail ∧ w2 = w) ↔ (q.drop m = [] ∧ w2 = w) := by
        constructor
        · rintro ⟨rfl, h2⟩
          refine ⟨?_, h2⟩
          rw [hcur]
          exact List.drop_eq_nil_of_le (by rw [hlenTake])
        · rintro ⟨h1d, h2⟩
          refine ⟨?_, h2⟩
          have : q = cc.take m := by
            apply eq_iff_prefix_drop_nil.1
            rw [hlenTake]
            exact ⟨hpq, h1d⟩
          rw [this, ← hcur]
      rw [hL, hR]
      have : (if q = b :: tail ∧ w2 = w then 1 else 0)
          = (if q.drop m = [] ∧ w2 = w then 1 else 0) := by
        by_cases hx : q = b :: tail ∧ w2 = w
        · rw [if_pos hx, if_pos (hIff.1 hx)]
        · rw [if_neg hx, if_neg (fun hy => hx (hIff.2 hy))]
      rw [this, Nat.add_comm]
    · have hpqf : (cc.take m).isPrefixOf q = false := by
        cases hy : (cc.take m).isPrefixOf q
        · rfl
        · exact absurd hy hpq
      have hccf : cc.isPrefixOf q = false := by
        cases hy : cc.isPrefixOf q
        · rfl
        · exfalso
          have := (hccq.1 hy).1
          rw [hpqf] at this
          cases this
      have hqne : ¬(q = b :: tail ∧ w2 = w) := by
        rintro ⟨rfl, _⟩
        rw [hcur] at hpqf
        rw [List.isPrefixOf_iff_prefix.2 (List.prefix_refl _)] at hpqf
        cases hpqf
      unfold contribAt
      simp [Trie.code, hpqf, hccf, hqne]
  | cons r0 rs =>
    have h1 := List.take_append_drop m (b :: tail)
    rw [hrem] at h1
    rw [← htake] at h1
    have hcur : (b :: tail) = cc.take m ++ r0 :: rs := h1.symm
    have hm3 : m < (b :: tail).length := by
      by_contra hcon
      rw [List.drop_eq_nil_of_le (by omega)] at hrem
      cases hrem
    have hstop : cc[m]? ≠ (b :: tail)[m]? := pollLen_stop cc _ hm2 hm3
    have hcodes : cc.drop m ≠ r0 :: rs := by
      intro hcon
      apply hstop
      rw [← List.head?_drop, ← List.head?_drop, hrem, hcon]
    rw [doInsert_split_two cc ws2 l2x m (r0 :: rs) w (by simp) hne]
    have hlink : linkSet [Trie.mk (cc.drop m) ws2 l2x] (.mk (r0 :: rs) [w] []) =
        [Trie.mk (cc.drop m) ws2 l2x, .mk (r0 :: rs) [w] []] := by
      simp [linkSet, Trie.code, hcodes]
    rw [hlink]
    by_cases hpq : (cc.take m).isPrefixOf q = true
    · have hcceq : cc.isPrefixOf q = (cc.drop m).isPrefixOf (q.drop m) := by
        cases hx : (cc.drop m).isPrefixOf (q.drop m)
        · cases hy : cc.isPrefixOf q
          · rfl
          · exfalso
            have := (hccq.1 hy).2
            rw [hx] at this
            cases this
        · exact hccq.2 ⟨hpq, hx⟩
      have hout : contribAt (.mk (cc.take m) []
            [Trie.mk (cc.drop m) ws2 l2x, .mk (r0 :: rs) [w] []]) q
          = (Trie.mk (cc.take m) []
            [Trie.mk (cc.drop m) ws2 l2x, .mk (r0 :: rs) [w] []]).wordsAt (q.drop m) := by
        unfold contribAt
        simp only [Trie.code, hpq, if_true, hlenTake]
      have hL : (contribAt (.mk (cc.take m) []
            [Trie.mk (cc.drop m) ws2 l2x, .mk (r0 :: rs) [w] []]) q).count w2
          = (if (cc.drop m).isPrefixOf (q.drop m) = true then
              ((Trie.mk cc ws2 l2x).wordsAt (q.drop cc.length)).count w2 else 0)
            + (if q.drop m = r0 :: rs ∧ w2 = w then 1 else 0) := by
        rw [hout, wordsAt_mk, wordsAtL_cons, wordsAtL_cons, wordsAtL_nil, List.append_nil,
          ite_self, List.nil_append, List.count_append]
        congr 1
        · unfold contribAt
          by_cases hx : (cc.drop m).isPrefixOf (q.drop m) = true
          · simp only [Trie.code, hx, if_true]
            rw [hwmk, hdropdrop]
          · have hxf : (cc.drop m).isPrefixOf (q.drop m) = false := by
              cases hy : (cc.drop m).isPrefixOf (q.drop m)
              · rfl
              · exact absurd hy hx
            simp [Trie.code, hxf]
        · exact count_contrib_leaf (r0 :: rs) w (q.drop m) w2
      have hR : (contribAt (.mk cc ws2 l2x) q).count w2
          = (if (cc.drop m).isPrefixOf (q.drop m) = true then
              ((Trie.mk cc ws2 l2x).wordsAt (q.drop cc.length)).count w2 else 0) := by
        unfold contribAt
        simp only [Trie.code, hcceq]
        by_cases hx : (cc.drop m).isPrefixOf (q.drop m) = true
        · simp [hx]
        · have hxf : (cc.drop m).isPrefixOf (q.drop m) = false := by
            cases hy : (cc.drop m).isPrefixOf (q.drop m)
            · rfl
            · exact absurd hy hx
          simp [hxf]
      have hIff : (q = b :: tail ∧ w2 = w) ↔ (q.drop m = r0 :: rs ∧ w2 = w) := by
        constructor
        · rintro ⟨rfl, h2⟩
          exact ⟨hrem, h2⟩
        · rintro ⟨h1d, h2⟩
          refine ⟨?_, h2⟩
          have hq0 := prefix_eq_append hpq
          rw [hlenTake] at hq0
          rw [hcur, hq0, h1d]
      rw [hL, hR]
      congr 1
      by_cases hx : q = b :: tail ∧ w2 = w
      · rw [if_pos (hIff.1 hx), if_pos hx]
      · rw [if_neg (fun hy => hx (hIff.2 hy)), if_neg hx]
    · have hpqf : (cc.take m).isPrefixOf q = false := by
        cases hy : (cc.take m).isPrefixOf q
        · rfl
        · exact absurd hy hpq
      have hccf : cc.isPrefixOf q = false := by
        cases hy : cc.isPrefixOf q
        · rfl
        · exfalso
          have := (hccq.1 hy).1
          rw [hpqf] at this
          cases this
      have hqne : ¬(q = b :: tail ∧ w2 = w) := by
        rintro ⟨rfl, _⟩
        rw [hcur] at hpqf
        rw [List.isPrefixOf_iff_prefix.2 (List.prefix_append _ _)] at hpqf
        cases hpqf
      unfold contribAt
      simp [Trie.code, hpqf, hccf, hqne]

theorem push_contrib_count (cc : Code) (wsx : List Word) (lx : List Trie) (w : Word)
    (q : Code) (w2 : Word) :
    (contribAt (.mk cc (wsx ++ [w]) lx) q).count w2
      = (contribAt (.mk cc wsx lx) q).count w2 + (if q = cc ∧ w2 = w then 1 else 0) := by
  unfold contribAt
  by_cases hpq : cc.isPrefixOf q = true
  · simp only [Trie.code, hpq, if_true]
    rw [wordsAt_mk, wordsAt_mk, List.count_append, List.count_append]
    by_cases hqd : q.drop cc.length = []
    · have hq : q = cc := eq_iff_prefix_drop_nil.1 ⟨hpq, hqd⟩
      have hqe : (q.drop cc.length).isEmpty = true := by rw [hqd]; rfl
      simp only [hqe, if_true]
      rw [List.count_append]
      by_cases hw2 : w2 = w
      · subst hw2; simp [hq, List.count_cons]; omega
      · simp [hq, List.count_cons, hw2, Ne.symm hw2]
    · have hqe : (q.drop cc.length).isEmpty = false := by
        cases hx : (q.drop cc.length).isEmpty
        · rfl
        · exact absurd (List.isEmpty_iff.1 hx) hqd
      have hqq : q ≠ cc := fun hcon => hqd (by subst hcon; simp)
      simp [hqe, hqq]
  · have hpqf : cc.isPrefixOf q = false := by
      cases hx : cc.isPrefixOf q
      · rfl
      · exact absurd hx hpq
    have hqq : q ≠ cc := by
      rintro rfl
      rw [List.isPrefixOf_iff_prefix.2 (List.prefix_refl _)] at hpqf
      cases hpqf
    simp [Trie.code, hpqf, hqq]

/-- The heart of claim C5: one insertion adds exactly one occurrence of the
word at exactly the inserted full code, and leaves every other (full code,
occurrence count) pair of the trie unchanged — even when it splits nodes. -/
theorem insert_count : ∀ (t : Trie) (cur : Code) (w : Word), t.goodT = true →
    ∀ (q : Code) (w2 : Word),
      ((t.insert cur w).wordsAt q).count w2 =
        (t.wordsAt q).count w2 + (if q = cur ∧ w2 = w then 1 else 0) := by
  refine Trie.insert.induct
    (fun t cur w => t.goodT = true → ∀ q w2,
      ((t.insert cur w).wordsAt q).count w2 =
        (t.wordsAt q).count w2 + (if q = cur ∧ w2 = w then 1 else 0))
    (fun l cur w => goodL l = true → ∀ l2, insertScan l cur w = some l2 → ∀ q w2,
      (wordsAtL l2 q).count w2 =
        (wordsAtL l q).count w2 + (if q = cur ∧ w2 = w then 1 else 0))
    ?_ ?_ ?_ ?_ ?_ ?_ ?_ ?_ ?_
  · intro cur w c words links l2 hscan ih hg q w2
    rw [goodT_mk] at hg
    simp only [Trie.insert, hscan]
    rw [wordsAt_mk, wordsAt_mk, List.count_append, List.count_append, ih hg l2 hscan q w2]
    omega
  · intro w c words links hscan _ hg q w2
    simp only [Trie.insert, hscan]
    rw [wordsAt_mk, wordsAt_mk, List.count_append, List.count_append]
    by_cases hq : q = []
    · subst hq
      simp only [List.isEmpty_nil, if_true]
      rw [List.count_append]
      by_cases hw2 : w2 = w
      · subst hw2; simp [List.count_cons]; omega
      · simp [List.count_cons, hw2, Ne.symm hw2]
    · have hqe : (List.isEmpty q) = false := by
        cases hx : List.isEmpty q
        · rfl
        · exact absurd (List.isEmpty_iff.1 hx) hq
      simp [hqe, hq]
  · intro w c words links b tail l2 hscan upd hex _ hg q w2
    exfalso
    rcases replaceFirstBy_some hex with ⟨l1, x, l3, hsplit, hpx, _⟩
    have hx : x.code = [b] := of_decide_eq_true hpx
    have hmem : x ∈ links := by rw [hsplit]; simp
    have := insertScan_eq_none.1 hscan x hmem
    rw [hx] at this
    simp [List.isPrefixOf] at this
  · intro w c words links b tail l2 hscan upd hex hhd ih hg q w2
    rw [goodT_mk] at hg
    simp only [Trie.insert, hscan, hex, hhd]
    rcases replaceFirstBy_some hhd with ⟨l1, x, l3, hsplit, hpx, hl2⟩
    have hxh : x.code.head? = some b := of_decide_eq_true hpx
    have hmem : x ∈ links := by rw [hsplit]; simp
    have hnp := insertScan_eq_none.1 hscan x hmem
    rw [wordsAt_mk, wordsAt_mk, List.count_append, List.count_append]
    rw [hl2, hsplit, wordsAtL_append, wordsAtL_append, wordsAtL_cons, wordsAtL_cons]
    rw [List.count_append, List.count_append, List.count_append, List.count_append]
    obtain ⟨cc, wsx, lx⟩ := x
    simp only [Trie.code] at hxh hnp
    have hupd : contribAt (upd (Trie.mk cc wsx lx)) q
        = contribAt (doInsert (Trie.mk cc wsx lx) (pollLen cc (b :: tail))
            ((b :: tail).drop (pollLen cc (b :: tail))) w) q := rfl
    rw [hupd, doInsert_count hxh hnp q w2]
    omega
  · intro w c words links b tail hscan upd hex hhd _ hg q w2
    rw [goodT_mk] at hg
    simp only [Trie.insert, hscan, hex, hhd]
    have hnob : ∀ x ∈ links, x.code.head? ≠ some b := by
      intro x hx
      exact of_decide_eq_false (replaceFirstBy_none.1 hhd x hx)
    have hkey : ∀ u ∈ links, u.code ≠ (Trie.mk (b :: tail) [w] []).code := by
      intro u hu hcon
      apply hnob u hu
      rw [hcon]
      rfl
    rw [linkSet_no_key hkey]
    rw [wordsAt_mk, wordsAt_mk, List.count_append, List.count_append, wordsAtL_append,
      List.count_append, wordsAtL_cons, wordsAtL_nil, List.append_nil, count_contrib_leaf]
    omega
  · intro cur w _ l2 h
    simp [insertScan] at h
  · intro cur w ch rest hpre r hr hg l2 hsc q w2
    simp only [insertScan, hpre, if_true] at hsc
    rw [if_pos hr] at hsc
    cases hsc
    rw [wordsAtL_cons, wordsAtL_cons, List.count_append, List.count_append]
    obtain ⟨cc, wsx, lx⟩ := ch
    have hre : cur.drop cc.length = [] := List.isEmpty_iff.1 hr
    have hpre2 : cc.isPrefixOf cur = true := hpre
    have hcur : cur = cc := eq_iff_prefix_drop_nil.1 ⟨hpre2, hre⟩
    rw [doInsert_push]
    simp only [Trie.code, Trie.words, Trie.links]
    rw [push_contrib_count, hcur]
    omega
  · intro cur w ch rest hpre r hr ih hg l2 hsc q w2
    simp only [insertScan, hpre, if_true] at hsc
    rw [if_neg hr] at hsc
    cases hsc
    rcases goodL_cons.1 hg with ⟨h1, h2, h3, h4⟩
    rw [wordsAtL_cons, wordsAtL_cons, List.count_append, List.count_append]
    have hcode := (insert_good ch (cur.drop ch.code.length) w h2).2
    have hcontrib : (contribAt (ch.insert (cur.drop ch.code.length) w) q).count w2
        = (contribAt ch q).count w2 + (if q = cur ∧ w2 = w then 1 else 0) := by
      unfold contribAt
      rw [hcode]
      by_cases hpq : ch.code.isPrefixOf q = true
      · simp only [hpq, if_true]
        rw [ih h2 (q.drop ch.code.length) w2]
        have hIff : (q.drop ch.code.length = cur.drop ch.code.length ∧ w2 = w)
            ↔ (q = cur ∧ w2 = w) := by
          constructor
          · rintro ⟨hd, h2w⟩
            refine ⟨?_, h2w⟩
            have hq := prefix_eq_append hpq
            have hc := prefix_eq_append hpre
            rw [hq, hd, ← hc]
          · rintro ⟨rfl, h2w⟩
            exact ⟨rfl, h2w⟩
        congr 1
        by_cases hx : q.drop ch.code.length = cur.drop ch.code.length ∧ w2 = w
        · rw [if_pos hx, if_pos (hIff.1 hx)]
        · rw [if_neg hx, if_neg (fun hy => hx (hIff.2 hy))]
      · have hpqf : ch.code.isPrefixOf q = false := by
          cases hx : ch.code.isPrefixOf q
          · rfl
          · exact absurd hx hpq
        have hqne : ¬(q = cur ∧ w2 = w) := by
          rintro ⟨rfl, _⟩
          rw [hpre] at hpqf
          cases hpqf
        simp [hpqf, hqne]
    rw [hcontrib]
    omega
  · intro cur w ch rest hpre ih hg l2 hsc q w2
    have hpf : ch.code.isPrefixOf cur = false := by
      cases hx : ch.code.isPrefixOf cur
      · rfl
      · exact absurd hx hpre
    simp only [insertScan, hpf] at hsc
    cases hrec : insertScan rest cur w with
    | none => rw [hrec] at hsc; cases hsc
    | some l2a =>
      rw [hrec] at hsc
      simp at hsc
      rcases goodL_cons.1 hg with ⟨_, _, _, h4⟩
      subst hsc
      rw [wordsAtL_cons, wordsAtL_cons, List.count_append, List.count_append,
        ih h4 l2a hrec q w2]
      omega

/-- Claim C5 (full-code integrity): in a trie built by any insert sequence, the
number of occurrences of word `w` among the nodes whose full code is `c`
equals the number of `(c, w)` entries inserted — every inserted occurrence
stays at its originally inserted full code across all later splits. -/
theorem insert_full_code_integrity (es : List (Code × Word)) (c : Code) (w : Word) :
    ((buildTrie es).wordsAt c).count w = es.count (c, w) := by
  suffices h : ∀ (es : List (Code × Word)) (t : Trie), t.goodT = true →
      ((es.foldl (fun t e => t.insert e.1 e.2) t).wordsAt c).count w
        = (t.wordsAt c).count w + es.count (c, w) by
    have h0 := h es Trie.empty (by simp [Trie.empty, Trie.goodT, goodL])
    rw [buildTrie, h0]
    simp [Trie.empty, Trie.wordsAt, wordsAtL]
  intro es
  induction es with
  | nil => intro t _; simp
  | cons e rest ih =>
    intro t hg
    simp only [List.foldl_cons]
    rw [ih _ (insert_good t e.1 e.2 hg).1, insert_count t e.1 e.2 hg c w]
    rw [List.count_cons]
    have : ((e.1, e.2) == (c, w)) = decide (c = e.1 ∧ w = e.2) := by
      by_cases hx : (e.1, e.2) = (c, w)
      · rw [hx]
        simp only [beq_self_eq_true]
        have : c = e.1 ∧ w = e.2 := by
          rcases Prod.mk.injEq .. ▸ hx with ⟨ha, hb⟩
          exact ⟨ha.symm, hb.symm⟩
        simp [this]
      · have h1 : ((e.1, e.2) == (c, w)) = false := beq_false_of_ne hx
        have h2 : ¬(c = e.1 ∧ w = e.2) := by
          rintro ⟨rfl, rfl⟩
          exact hx rfl
        simp [h1, h2]
    rw [this]
    by_cases hx : c = e.1 ∧ w = e.2
    · simp [hx]
      omega
    · simp [hx]

/-! ## The greedy walk finds the unique node holding a realized full code -/

theorem wordsAtL_nil_of_good : ∀ {l : List Trie}, goodL l = true → wordsAtL l [] = [] := by
  intro l
  induction l with
  | nil => intro _; rfl
  | cons ch rest ih =>
    intro hg
    rcases goodL_cons.1 hg with ⟨h1, _, _, h4⟩
    rw [wordsAtL_cons, ih h4, List.append_nil]
    unfold contribAt
    have : ch.code.isPrefixOf [] = false := by
      cases hcc : ch.code with
      | nil => cases h1 hcc
      | cons x xs => rfl
    simp [this]

theorem wordsAtL_nil_of_no_match : ∀ {l : List Trie} {c : Code},
    (∀ u ∈ l, u.code.isPrefixOf c = false) → wordsAtL l c = [] := by
  intro l
  induction l with
  | nil => intro c _; rfl
  | cons ch rest ih =>
    intro c h
    rw [wordsAtL_cons, ih (fun u hu => h u (by simp [hu])), List.append_nil]
    unfold contribAt
    simp [h ch (by simp)]

theorem head?_of_isPrefixOf {a c : Code} (h : a.isPrefixOf c = true) (hne : a ≠ []) :
    a.head? = c.head? := by
  have := prefix_eq_append h
  rw [this]
  cases a with
  | nil => cases hne rfl
  | cons x xs => rfl

theorem siblings_no_match {ch : Trie} {rest : List Trie} {c : Code}
    (hg : goodL (ch :: rest) = true) (hpre : ch.code.isPrefixOf c = true) :
    ∀ u ∈ rest, u.code.isPrefixOf c = false := by
  rcases goodL_cons.1 hg with ⟨h1, _, h3, h4⟩
  intro u hu
  cases hx : u.code.isPrefixOf c
  · rfl
  · exfalso
    rcases goodL_mem h4 hu with ⟨_, hune⟩
    apply h3 u hu
    rw [head?_of_isPrefixOf hx hune, head?_of_isPrefixOf hpre h1]

/-- If some word is stored at full code `c`, the greedy deepest-walk on a
well-formed trie consumes all of `c` and stops exactly at the node holding
those words. -/
theorem dfc_finds_wordsAt : ∀ (t : Trie) (c : Code), t.goodT = true →
    t.wordsAt c ≠ [] →
    (t.deepestFullCode c).2.1 = [] ∧ (t.deepestFullCode c).1.words = t.wordsAt c := by
  refine Trie.deepestFullCode.induct
    (fun t c => t.goodT = true → t.wordsAt c ≠ [] →
      (t.deepestFullCode c).2.1 = [] ∧ (t.deepestFullCode c).1.words = t.wordsAt c)
    (fun t l c => t.goodT = true → goodL l = true →
      wordsAtL l c ≠ [] →
      (deepestAux t l c).2.1 = [] ∧ (deepestAux t l c).1.words = wordsAtL l c)
    ?_ ?_ ?_ ?_ ?_
  · intro c c0 words links ih hg hne
    rw [goodT_mk] at hg
    by_cases hc : c = []
    · subst hc
      have hnil := wordsAtL_nil_of_good hg
      have hnom : ∀ u ∈ links, u.code.isPrefixOf ([] : Code) = false := by
        intro u hu
        rcases goodL_mem hg hu with ⟨_, hune⟩
        cases hcc : u.code with
        | nil => cases hune hcc
        | cons x xs => rfl
      simp only [Trie.deepestFullCode]
      rw [deepestAux_no_match links _ [] hnom]
      refine ⟨rfl, ?_⟩
      rw [wordsAt_mk, hnil, List.append_nil]
      rfl
    · have hcne : (List.isEmpty c) = false := by
        cases hx : List.isEmpty c
        · rfl
        · exact absurd (List.isEmpty_iff.1 hx) hc
      have hwa : (Trie.mk c0 words links).wordsAt c = wordsAtL links c := by
        rw [wordsAt_mk, hcne]
        simp
      rw [hwa] at hne ⊢
      simp only [Trie.deepestFullCode]
      exact ih (by rw [goodT_mk]; exact hg) hg hne
  · intro t c hgt hgl hne
    cases hne rfl
  · intro t c ch rest hpre r hr hgt hgl hne
    have hre : c.drop ch.code.length = [] := List.isEmpty_iff.1 hr
    rcases goodL_cons.1 hgl with ⟨h1, h2, _, h4⟩
    have hsib := siblings_no_match hgl hpre
    have hrest : wordsAtL rest c = [] := wordsAtL_nil_of_no_match hsib
    have hstep : deepestAux t (ch :: rest) c = (ch, [], true) := by
      simp [deepestAux, hpre, hre]
    rw [hstep]
    refine ⟨rfl, ?_⟩
    rw [wordsAtL_cons, hrest, List.append_nil]
    unfold contribAt
    rw [if_pos hpre, hre]
    obtain ⟨cc, wsx, lx⟩ := ch
    rw [goodT_mk] at h2
    rw [wordsAt_mk, wordsAtL_nil_of_good h2]
    simp [Trie.words]
  · intro t c ch rest hpre r hr ih hgt hgl hne
    have hr2 : (c.drop ch.code.length).isEmpty = false := by
      cases hx : (c.drop ch.code.length).isEmpty
      · rfl
      · exact absurd hx hr
    rcases goodL_cons.1 hgl with ⟨h1, h2, _, h4⟩
    have hsib := siblings_no_match hgl hpre
    have hrest : wordsAtL rest c = [] := wordsAtL_nil_of_no_match hsib
    have hwl : wordsAtL (ch :: rest) c = ch.wordsAt (c.drop ch.code.length) := by
      rw [wordsAtL_cons, hrest, List.append_nil]
      unfold contribAt
      rw [if_pos hpre]
    rw [hwl] at hne ⊢
    have hstep : deepestAux t (ch :: rest) c =
        ((ch.deepestFullCode (c.drop ch.code.length)).1,
         (ch.deepestFullCode (c.drop ch.code.length)).2.1, true) := by
      simp [deepestAux, hpre, hr2]
    rw [hstep]
    exact ih h2 hne
  · intro t c ch rest hpre ih hgt hgl hne
    have hpf : ch.code.isPrefixOf c = false := by
      cases hx : ch.code.isPrefixOf c
      · rfl
      · exact absurd hx hpre
    rcases goodL_cons.1 hgl with ⟨_, _, _, h4⟩
    have hwl : wordsAtL (ch :: rest) c = wordsAtL rest c := by
      rw [wordsAtL_cons]
      unfold contribAt
      simp [hpf]
    rw [hwl] at hne ⊢
    have hstep : deepestAux t (ch :: rest) c = deepestAux t rest c := by
      simp [deepestAux, hpf]
    rw [hstep]
    exact ih hgt h4 hne

/-! ## Every code stored in the reverse index is realized in the trie -/

theorem nodesFrom_mem : ∀ (t : Trie) (pfx c0 : Code) (n : Trie),
    (c0, n) ∈ t.nodesFrom pfx →
    ∃ rel, c0 = pfx ++ t.code ++ rel ∧ ∀ w ∈ n.words, w ∈ t.wordsAt rel := by
  refine Trie.nodesFrom.induct
    (fun t pfx => ∀ c0 n, (c0, n) ∈ t.nodesFrom pfx →
      ∃ rel, c0 = pfx ++ t.code ++ rel ∧ ∀ w ∈ n.words, w ∈ t.wordsAt rel)
    (fun l pfx => ∀ c0 n, (c0, n) ∈ nodesFromL l pfx →
      ∃ rel, c0 = pfx ++ rel ∧ ∀ w ∈ n.words, w ∈ wordsAtL l rel)
    ?_ ?_ ?_
  · intro pfx c ws l ih c0 n hmem
    simp only [Trie.nodesFrom] at hmem
    rcases List.mem_cons.1 hmem with hmem | hmem
    · have hc0 : c0 = pfx ++ c := congrArg Prod.fst hmem
      have hn : n = Trie.mk c ws l := congrArg Prod.snd hmem
      refine ⟨[], by simp [hc0, Trie.code], ?_⟩
      intro w hw
      rw [wordsAt_mk]
      apply List.mem_append_left
      rw [hn] at hw
      simpa [Trie.words] using hw
    · rcases ih c0 n hmem with ⟨rel, hrel, hws⟩
      refine ⟨rel, by simp [hrel, Trie.code], ?_⟩
      intro w hw
      rw [wordsAt_mk]
      exact List.mem_append_right _ (hws w hw)
  · intro pfx c0 n hmem
    cases hmem
  · intro pfx ch rest ih1 ih2 c0 n hmem
    simp only [nodesFromL] at hmem
    rcases List.mem_append.1 hmem with hmem | hmem
    · rcases ih1 c0 n hmem with ⟨rel, hrel, hws⟩
      refine ⟨rel, hrel, ?_⟩
      intro w hw
      rw [wordsAtL_cons]
      exact List.mem_append_right _ (hws w hw)
    · rcases ih2 c0 n hmem with ⟨rel, hrel, hws⟩
      refine ⟨ch.code ++ rel, by simpa using hrel, ?_⟩
      intro w hw
      rw [wordsAtL_cons]
      apply List.mem_append_left
      unfold contribAt
      rw [if_pos (List.isPrefixOf_iff_prefix.2 (List.prefix_append _ _)),
        List.drop_left]
      exact hws w hw

theorem lookupW_mem : ∀ {m : List (Word × Info)} {w2 : Word} {i : Info},
    lookupW m w2 = some i → (w2, i) ∈ m := by
  intro m
  induction m with
  | nil => intro w2 i h; cases h
  | cons p rest ih =>
    intro w2 i h
    obtain ⟨w0, i0⟩ := p
    by_cases h0 : w0 = w2
    · subst h0
      have hlk : lookupW ((w0, i0) :: rest) w0 = some i0 := by simp [lookupW]
      rw [hlk] at h
      injection h with h2
      subst h2
      simp
    · simp only [lookupW, if_neg h0] at h
      exact List.mem_cons_of_mem _ (ih h)

theorem mapSet_mem : ∀ {m : List (Word × Info)} {w : Word} {i : Info} {p : Word × Info},
    p ∈ mapSet m w i → p ∈ m ∨ p = (w, i) := by
  intro m
  induction m with
  | nil =>
    intro w i p h
    simp only [mapSet] at h
    rcases List.mem_cons.1 h with h | h
    · exact Or.inr h
    · cases h
  | cons q rest ih =>
    intro w i p h
    obtain ⟨w0, i0⟩ := q
    by_cases h0 : w0 = w
    · subst h0
      simp only [mapSet, if_pos rfl] at h
      rcases List.mem_cons.1 h with h | h
      · exact Or.inr (by rw [h])
      · exact Or.inl (List.mem_cons_of_mem _ h)
    · simp only [mapSet, if_neg h0] at h
      rcases List.mem_cons.1 h with h | h
      · exact Or.inl (by rw [h]; simp)
      · rcases ih h with h | h
        · exact Or.inl (List.mem_cons_of_mem _ h)
        · exact Or.inr h

theorem updateCode_mem : ∀ {m : List (Word × Info)} {w : Word} {full : Code} {p : Word × Info},
    p ∈ updateCodeIfShorter m w full → p ∈ m ∨ ∃ nd, p = (w, ⟨full, nd⟩) := by
  intro m
  induction m with
  | nil => intro w full p h; cases h
  | cons q rest ih =>
    intro w full p h
    obtain ⟨w0, i0⟩ := q
    by_cases h0 : w0 = w
    · subst h0
      simp only [updateCodeIfShorter, if_pos rfl] at h
      rcases List.mem_cons.1 h with h | h
      · by_cases hlen : full.length < i0.fullCode.length
        · rw [if_pos hlen] at h
          exact Or.inr ⟨i0.node, h⟩
        · rw [if_neg hlen] at h
          exact Or.inl (by rw [h]; simp)
      · exact Or.inl (List.mem_cons_of_mem _ h)
    · simp only [updateCodeIfShorter, if_neg h0] at h
      rcases List.mem_cons.1 h with h | h
      · exact Or.inl (by rw [h]; simp)
      · rcases ih h with h | h
        · exact Or.inl (List.mem_cons_of_mem _ h)
        · exact Or.inr h

theorem insertIfShorter_mem {m : List (Word × Info)} {w : Word} {full : Code} {n : Trie}
    {p : Word × Info} (h : p ∈ insertIfShorter m w full n) :
    p ∈ m ∨ ∃ nd, p = (w, ⟨full, nd⟩) := by
  unfold insertIfShorter at h
  cases hlk : lookupW m w with
  | none =>
    rw [hlk] at h
    rcases mapSet_mem h with h | h
    · exact Or.inl h
    · exact Or.inr ⟨n, h⟩
  | some i0 =>
    rw [hlk] at h
    exact updateCode_mem h

theorem innerFold_inv (t : Trie) (full : Code) (n : Trie) :
    ∀ (ws : List Word), (∀ w ∈ ws, w ∈ t.wordsAt full) →
    ∀ (m0 : List (Word × Info)), (∀ p ∈ m0, p.1 ∈ t.wordsAt p.2.fullCode) →
    ∀ p ∈ ws.foldl (fun m w => insertIfShorter m w full n) m0,
      p.1 ∈ t.wordsAt p.2.fullCode := by
  intro ws
  induction ws with
  | nil => intro _ m0 hm0 p hp; exact hm0 p hp
  | cons w0 wrest ihw =>
    intro hws m0 hm0 p hp
    simp only [List.foldl_cons] at hp
    refine ihw (fun u hu => hws u (by simp [hu])) _ ?_ p hp
    intro p2 hp2
    rcases insertIfShorter_mem hp2 with h | ⟨nd, hnd⟩
    · exact hm0 p2 h
    · rw [hnd]
      exact hws w0 (by simp)

/-- Every `(word, info)` pair the reverse-index construction ever stores has a
code realized by that word somewhere in the trie (the stored *node* may be
stale — see claim C2 — but the stored code is always genuine). -/
theorem revDict_realizes (t : Trie) (hroot : t.code = []) :
    ∀ w info, lookupW (t.revDict).map w = some info → w ∈ t.wordsAt info.fullCode := by
  have hpairs : ∀ p ∈ t.nodesFrom [], ∀ w ∈ p.2.words, w ∈ t.wordsAt p.1 := by
    intro p hp w hw
    obtain ⟨c0, n⟩ := p
    rcases nodesFrom_mem t [] c0 n hp with ⟨rel, hrel, hmem⟩
    rw [hroot] at hrel
    simp only [List.nil_append] at hrel
    rw [hrel]
    exact hmem w hw
  suffices h : ∀ (pairs : List (Code × Trie)),
      (∀ p ∈ pairs, ∀ w ∈ p.2.words, w ∈ t.wordsAt p.1) →
      ∀ (m0 : List (Word × Info)),
        (∀ p ∈ m0, p.1 ∈ t.wordsAt p.2.fullCode) →
        ∀ p ∈ pairs.foldl
          (fun m q => q.2.words.foldl (fun m w => insertIfShorter m w q.1 q.2) m) m0,
          p.1 ∈ t.wordsAt p.2.fullCode by
    intro w info hlk
    have hm := h (t.nodesFrom []) hpairs [] (by intro p hp; cases hp) (w, info)
      (lookupW_mem hlk)
    exact hm
  intro pairs
  induction pairs with
  | nil =>
    intro _ m0 hm0 p hp
    exact hm0 p hp
  | cons q rest ih =>
    intro hval m0 hm0 p hp
    simp only [List.foldl_cons] at hp
    refine ih (fun u hu => hval u (by simp [hu])) _ ?_ p hp
    exact innerFold_inv t q.1 q.2 q.2.words (hval q (by simp)) m0 hm0

theorem buildTrie_code (es : List (Code × Word)) : (buildTrie es).code = [] := by
  suffices h : ∀ (es : List (Code × Word)) (t : Trie), t.goodT = true →
      (es.foldl (fun t e => t.insert e.1 e.2) t).code = t.code by
    exact h es Trie.empty (by simp [Trie.empty, Trie.goodT, goodL])
  intro es
  induction es with
  | nil => intro t _; rfl
  | cons e rest ih =>
    intro t hg
    simp only [List.foldl_cons]
    rw [ih _ (insert_good t e.1 e.2 hg).1, (insert_good t e.1 e.2 hg).2]

/-- Claim C6 (round trip, unambiguous case): if the reverse index maps `w` to
code `c` and the node the decoder's walk reaches under `c` holds exactly one
word and no children, then decoding `c` yields exactly `w`. -/
theorem eval_round_trip_unambiguous (es : List (Code × Word)) (w : Word) (c : Code)
    (hget : ((buildTrie es).revDict).get w = some c)
    (hone : ((buildTrie es).deepestFullCode c).1.words.length = 1)
    (hleaf : ((buildTrie es).deepestFullCode c).1.isLeaf = true) :
    (buildTrie es).eval c = some w := by
  set t := buildTrie es with ht
  have hg : t.goodT = true := goodT_buildTrie es
  unfold RevDict.get at hget
  cases hlk : lookupW t.revDict.map w with
  | none => rw [hlk] at hget; cases hget
  | some info =>
    rw [hlk] at hget
    simp only [Option.map] at hget
    injection hget with hget
    have hw : w ∈ t.wordsAt c := by
      rw [← hget]
      exact revDict_realizes t (buildTrie_code es) w info hlk
    have hne : t.wordsAt c ≠ [] := fun hcon => by rw [hcon] at hw; cases hw
    rcases dfc_finds_wordsAt t c hg hne with ⟨hcur, hwords⟩
    have hwin : w ∈ (t.deepestFullCode c).1.words := by rw [hwords]; exact hw
    have hwlist : (t.deepestFullCode c).1.words = [w] := by
      cases hws : (t.deepestFullCode c).1.words with
      | nil => rw [hws] at hwin; cases hwin
      | cons a as =>
        rw [hws] at hone hwin
        cases as with
        | nil =>
          have : w = a := by simpa using hwin
          rw [this]
        | cons b bs => simp at hone
    unfold Trie.eval
    rcases hdfc : t.deepestFullCode c with ⟨n, cur, mv⟩
    rw [hdfc] at hcur hwlist
    simp only at hcur hwlist
    subst hcur
    have hloop : evalLoop t (c.length + 1) c [] = some [w] := by
      simp only [evalLoop, hdfc, hwlist]
      rfl
    rw [hloop]
    simp

theorem eval_round_trip_unambiguous_witness :
    ((buildTrie [([110, 105], ['N'])]).revDict).get ['N'] = some [110, 105] ∧
    ((buildTrie [([110, 105], ['N'])]).deepestFullCode [110, 105]).1.words.length = 1 ∧
    ((buildTrie [([110, 105], ['N'])]).deepestFullCode [110, 105]).1.isLeaf = true ∧
    (buildTrie [([110, 105], ['N'])]).eval [110, 105] = some ['N'] :=
  ⟨rfl, rfl, rfl,
    eval_round_trip_unambiguous [([110, 105], ['N'])] ['N'] [110, 105] rfl rfl rfl⟩

/-! ## Byte-by-byte echoing of unrecognized input (claim C9) -/

theorem evalLoop_echoes (t : Trie) (hg : t.goodT = true) (hw : t.words = []) :
    ∀ (bs : List Nat), (∀ ch ∈ t.links, ∀ b ∈ bs, ch.code.head? ≠ some b) →
    ∀ (fuel : Nat) (acc : List Word), bs.length < fuel →
    evalLoop t fuel bs acc = some (acc ++ bs.map (fun b => [byteChar b])) := by
  have hgl : goodL t.links = true := by rw [← goodT_links]; exact hg
  intro bs
  induction bs with
  | nil =>
    intro _ fuel acc hf
    cases fuel with
    | zero => omega
    | succ f =>
      have hnom : ∀ ch ∈ t.links, ch.code.isPrefixOf [] = false := by
        intro ch hch
        rcases goodL_mem hgl hch with ⟨_, hne⟩
        cases hcc : ch.code with
        | nil => cases hne hcc
        | cons x xs => rfl
      simp only [evalLoop, dfc_no_match t [] hnom, hw]
      simp
  | cons b rest ih =>
    intro hout fuel acc hf
    cases fuel with
    | zero => omega
    | succ f =>
      have hnom : ∀ ch ∈ t.links, ch.code.isPrefixOf (b :: rest) = false := by
        intro ch hch
        cases hx : ch.code.isPrefixOf (b :: rest)
        · rfl
        · exfalso
          rcases goodL_mem hgl hch with ⟨_, hne⟩
          have hh := head?_of_isPrefixOf hx hne
          exact hout ch hch b (by simp) (by rw [hh]; rfl)
      simp only [evalLoop, dfc_no_match t _ hnom, hw]
      rw [ih (fun ch hch b2 hb2 => hout ch hch b2 (by simp [hb2])) f
        (acc ++ [[byteChar b]]) (by simp only [List.length_cons] at hf; omega)]
      simp

theorem utf8Bytes_high {v : Nat} (hv : 128 ≤ v) :
    (∀ b ∈ utf8Bytes v, 128 ≤ b) ∧ 2 ≤ (utf8Bytes v).length := by
  unfold utf8Bytes
  rw [if_neg (by omega)]
  by_cases h1 : v < 2048
  · rw [if_pos h1]
    refine ⟨?_, by simp⟩
    intro b hb
    rcases List.mem_cons.1 hb with rfl | hb
    · omega
    · rcases List.mem_cons.1 hb with rfl | hb
      · omega
      · cases hb
  · rw [if_neg h1]
    by_cases h2 : v < 65536
    · rw [if_pos h2]
      refine ⟨?_, by simp⟩
      intro b hb
      rcases List.mem_cons.1 hb with rfl | hb
      · omega
      · rcases List.mem_cons.1 hb with rfl | hb
        · omega
        · rcases List.mem_cons.1 hb with rfl | hb
          · omega
          · cases hb
    · rw [if_neg h2]
      refine ⟨?_, by simp⟩
      intro b hb
      rcases List.mem_cons.1 hb with rfl | hb
      · omega
      · rcases List.mem_cons.1 hb with rfl | hb
        · omega
        · rcases List.mem_cons.1 hb with rfl | hb
          · omega
          · rcases List.mem_cons.1 hb with rfl | hb
            · omega
            · cases hb

theorem flatten_singletons : ∀ (bs : List Nat) (f : Nat → Char),
    (bs.map (fun b => [f b])).flatten = bs.map f := by
  intro bs f
  induction bs with
  | nil => rfl
  | cons b rest ih => simp [ih]

/-- Claim C9: the decoder consumes its input byte-by-byte, so a multi-byte
UTF-8 scalar that matches no code is echoed as one character *per byte*
(each byte reinterpreted as a Latin-1 code point), never as the original
scalar: the output has one character per byte, at least two of them. -/
theorem eval_echoes_bytes_of_unknown_scalar (t : Trie) (v : Nat)
    (hg : t.goodT = true) (hw : t.words = [])
    (hascii : ∀ ch ∈ t.links, ∀ b ∈ ch.code, b < 128)
    (hv : 128 ≤ v) :
    t.eval (utf8Bytes v) = some ((utf8Bytes v).map byteChar) ∧
    2 ≤ (utf8Bytes v).length := by
  rcases utf8Bytes_high hv with ⟨hbytes, hlen⟩
  have hout : ∀ ch ∈ t.links, ∀ b ∈ utf8Bytes v, ch.code.head? ≠ some b := by
    intro ch hch b hb hcon
    have hbm : b ∈ ch.code := by
      cases hcc : ch.code with
      | nil => rw [hcc] at hcon; cases hcon
      | cons x xs =>
        rw [hcc] at hcon
        injection hcon with hx
        rw [← hx]
        exact List.mem_cons_self x xs
    have := hascii ch hch b hbm
    have := hbytes b hb
    omega
  have hloop := evalLoop_echoes t hg hw (utf8Bytes v) hout ((utf8Bytes v).length + 1) []
    (by omega)
  refine ⟨?_, hlen⟩
  unfold Trie.eval
  rw [hloop]
  simp only [List.nil_append, Option.map]
  rw [flatten_singletons]

theorem eval_echoes_bytes_witness :
    ((buildTrie [([97], ['X'])]).goodT = true ∧
      (buildTrie [([97], ['X'])]).words = [] ∧
      (∀ ch ∈ (buildTrie [([97], ['X'])]).links, ∀ b ∈ ch.code, b < 128) ∧ 128 ≤ 233) ∧
    ((buildTrie [([97], ['X'])]).eval (utf8Bytes 233) = some ((utf8Bytes 233).map byteChar) ∧
      2 ≤ (utf8Bytes 233).length) :=
  ⟨⟨by decide, rfl, by decide, by decide⟩,
    eval_echoes_bytes_of_unknown_scalar (buildTrie [([97], ['X'])]) 233
      (by decide) rfl (by decide) (by decide)⟩

/-! ## The selector case of `eval` (claim C3) -/

/-- Counterexample to claim C3 as stated: after `a3`, the selector index 2
commits the child's second word `Z`, but the claimed list (own words plus each
child's first word) is `[X, Y]` and does not contain `Z` at all — so the list
eval picks from is not the claimed one. -/
theorem eval_selector_picks_beyond_claimed :
    evalLoop (buildTrie [([97], ['X']), ([97, 98], ['Y']), ([97, 98], ['Z'])]) 2 [97, 51] []
        = some [['Z']] ∧
    claimedCandidates
        ((buildTrie [([97], ['X']), ([97, 98], ['Y']), ([97, 98], ['Z'])]).deepestFullCode
          [97, 51]).1 = [['X'], ['Y']] ∧
    ['Z'] ∉ claimedCandidates
        ((buildTrie [([97], ['X']), ([97, 98], ['Y']), ([97, 98], ['Z'])]).deepestFullCode
          [97, 51]).1 := by
  refine ⟨rfl, rfl, by decide⟩

/-- Claim C3, amended: in eval's ambiguous (selector) case the list a selector
index picks from is the reached node's own words followed by ALL the words of
each direct child, in that order; `' '` selects index 0, `'\''` index 1 and a
digit `d` index `d − 1`, with the out-of-range fallback emitting the first
candidate and the literal selector character. -/
theorem eval_selector_step (t : Trie) (fuel : Nat) (cursor : Code) (acc : List Word)
    (n : Trie) (b : Nat) (rest : Code) (fw : Word) (k : Nat)
    (hdfc : t.deepestFullCode cursor = (n, b :: rest, true))
    (hfw : n.words.head? = some fw)
    (hamb : ¬(n.words.length = 1 ∧ n.isLeaf = true))
    (hsel : (b = 32 ∧ k = 0) ∨ (b = 39 ∧ k = 1) ∨ (49 ≤ b ∧ b ≤ 57 ∧ k = b - 49)) :
    evalLoop t (fuel + 1) cursor acc =
      evalLoop t fuel rest (acc ++
        match (n.words ++ n.links.flatMap Trie.words)[k]? with
        | some cw => [cw]
        | none => [fw, [byteChar b]]) := by
  have hselIdx : selectIndex b = some k := by
    rcases hsel with ⟨rfl, rfl⟩ | ⟨rfl, rfl⟩ | ⟨h1, h2, rfl⟩
    · rfl
    · rfl
    · unfold selectIndex
      rw [if_neg (by omega), if_neg (by omega), if_pos ⟨h1, h2⟩]
  simp only [evalLoop, hdfc, hfw, hselIdx, if_neg hamb, if_true]
  cases hc : (n.words ++ n.links.flatMap Trie.words)[k]? with
  | some cw =>
    have hc2 : n.candidates[k]? = some cw := by rw [Trie.candidates]; exact hc
    simp only [hc2]
  | none =>
    have hc2 : n.candidates[k]? = none := by rw [Trie.candidates]; exact hc
    simp only [hc2]

theorem eval_selector_step_witness :
    ((buildTrie [([97], ['X']), ([97, 98], ['Y']), ([97, 98], ['Z'])]).deepestFullCode
        [97, 51] = (Trie.mk [97] [['X']] [Trie.mk [98] [['Y'], ['Z']] []], [51], true)) ∧
    evalLoop (buildTrie [([97], ['X']), ([97, 98], ['Y']), ([97, 98], ['Z'])]) 2 [97, 51] [] =
      evalLoop (buildTrie [([97], ['X']), ([97, 98], ['Y']), ([97, 98], ['Z'])]) 1 []
        ([] ++
          match ((Trie.mk [97] [['X']] [Trie.mk [98] [['Y'], ['Z']] []]).words ++
            (Trie.mk [97] [['X']] [Trie.mk [98] [['Y'], ['Z']] []]).links.flatMap
              Trie.words)[2]? with
          | some cw => [cw]
          | none => [['X'], [byteChar 51]]) :=
  ⟨rfl,
    eval_selector_step (buildTrie [([97], ['X']), ([97, 98], ['Y']), ([97, 98], ['Z'])])
      1 [97, 51] [] (Trie.mk [97] [['X']] [Trie.mk [98] [['Y'], ['Z']] []]) 51 [] ['X'] 2
      rfl rfl (by decide) (Or.inr (Or.inr (by omega)))⟩

/-! ## The reverse index stores a stale node on update (claim C2) -/

/-- Every `(full code, node)` pair produced by the traversal has the node's own
segment as a suffix of the full code — the sanity condition any pair with
`full_code(node) = code` must satisfy. -/
theorem nodesFrom_code_suffix : ∀ (t : Trie) (pfx : Code),
    ∀ p ∈ t.nodesFrom pfx, p.2.code.isSuffixOf p.1 = true := by
  refine Trie.nodesFrom.induct
    (fun t pfx => ∀ p ∈ t.nodesFrom pfx, p.2.code.isSuffixOf p.1 = true)
    (fun l pfx => ∀ p ∈ nodesFromL l pfx, p.2.code.isSuffixOf p.1 = true)
    ?_ ?_ ?_
  · intro pfx c ws l ih p hp
    simp only [Trie.nodesFrom] at hp
    rcases List.mem_cons.1 hp with hp | hp
    · rw [hp]
      simp only [Trie.code]
      exact List.isSuffixOf_iff_suffix.2 (List.suffix_append pfx c)
    · exact ih p hp
  · intro pfx p hp
    cases hp
  · intro pfx ch rest ih1 ih2 p hp
    simp only [nodesFromL] at hp
    rcases List.mem_append.1 hp with hp | hp
    · exact ih1 p hp
    · exact ih2 p hp

/-- Claim C2 fails on the code (`RevDict::insert_if_shorter` updates the
stored code through `get_mut` but never the stored node): after inserting
`("c", w)` then `("ab", w)`, the traversal meets the `"ab"` node first, and the
later, shorter `"c"` code only overwrites the code field.  The stored pair is
(code `"c"`, node with segment `"ab"`), whose node cannot realize the code
(its segment is not even a suffix of it), while the genuine realizing pair
(code `"c"`, the `"c"` leaf) exists in the traversal. -/
theorem rev_dict_keeps_stale_node :
    (lookupW ((buildTrie [([99], ['w']), ([97, 98], ['w'])]).revDict).map ['w']).map
        (fun i => (i.fullCode, i.node.code)) = some ([99], [97, 98]) ∧
    ([97, 98] : Code).isSuffixOf [99] = false ∧
    ([99], Trie.mk [99] [['w']] []) ∈
      (buildTrie [([99], ['w']), ([97, 98], ['w'])]).nodesFrom [] := by
  refine ⟨rfl, rfl, ?_⟩
  exact List.mem_cons.2 (Or.inr (List.mem_cons.2 (Or.inr (List.mem_cons.2 (Or.inl rfl)))))

/-! ## `shortest` on the empty sentence (claim C10) -/

/-- Claim C10: on the empty sentence the DP loop never runs, so `shortest`
always succeeds with the base state's empty fragment, preceded in typing order
by nothing and followed by one trailing selector space exactly when the root
node holds more than one word or has any child; the result is never empty. -/
theorem shortest_empty_sentence (rd : RevDict) :
    rd.shortest [] = .ok (if 1 < rd.trie.words.length || !rd.trie.isLeaf
      then [([] : Code), [32]] else [([] : Code)]) := by
  have h1 : rd.shortest [] = .ok
      (((if 1 < rd.trie.words.length || !rd.trie.isLeaf then [([32] : Code)] else []) ++
        [([] : Code)]).reverse) := rfl
  rw [h1]
  cases hb : (1 < rd.trie.words.length || !rd.trie.isLeaf)
  · simp [hb]
  · simp [hb]

/-! ## The disambiguation rule compares against a stale word range (claim C7) -/

/-- Claim C7 fails on the code: the DP stores `word_range` from the *last*
inner-loop iteration (the single character before the boundary), not the
committed word, so condition (a) is evaluated against that character.  With
words `xy ↦ "ab"`, `W ↦ "abc"`, `z ↦ "c"`, `x ↦ "p"` and sentence `xyz`, the
predecessor of the final transition commits `xy` at node `"ab"` — the first of
its two candidates `[xy, W]` — and the child `"c"` is a literal prefix of the
code `"c"` of `z`, so the claimed rule demands a leading space; the code
compares the candidate `xy` against the stale one-character word `y` instead
and omits the space.  Decoding the emitted spaceless keystrokes yields `W`,
not `xyz`, confirming the corruption the rule was meant to prevent. -/
theorem shortest_omits_required_space :
    ((buildTrie [([97, 98], ['x', 'y']), ([97, 98, 99], ['W']), ([99], ['z']),
        ([112], ['x'])]).revDict).shortest ['x', 'y', 'z'] = .ok [[97, 98], [99]] ∧
    ((buildTrie [([97, 98], ['x', 'y']), ([97, 98, 99], ['W']), ([99], ['z']),
        ([112], ['x'])]).deepestFullCode [97, 98]).1.candidates.head? = some ['x', 'y'] ∧
    2 ≤ ((buildTrie [([97, 98], ['x', 'y']), ([97, 98, 99], ['W']), ([99], ['z']),
        ([112], ['x'])]).deepestFullCode [97, 98]).1.candidates.length ∧
    ((buildTrie [([97, 98], ['x', 'y']), ([97, 98, 99], ['W']), ([99], ['z']),
        ([112], ['x'])]).deepestFullCode [97, 98]).1.links.any
        (fun ch => ch.code.isPrefixOf [99]) = true ∧
    (buildTrie [([97, 98], ['x', 'y']), ([97, 98, 99], ['W']), ([99], ['z']),
        ([112], ['x'])]).eval ([97, 98] ++ [99]) = some ['W'] :=
  ⟨rfl, rfl, by decide, rfl, rfl⟩

/-! ## Failure characterization of `shortest` (claim C8)

A sentence end-position `m` (1-based, i.e. after char index `m - 1`) is
*covered* when some dictionary word spans `[j, m)` for a `j < m`.  The DP
extends the table exactly when the current end position is covered and fails
at the first uncovered one, naming the scalar there and its 0-based index. -/

theorem ite_some_ne_none {α : Type} {c : Prop} [Decidable c] {a b : α} :
    (if c then some a else some b) ≠ none := by
  split
  · exact Option.noConfusion
  · exact Option.noConfusion

theorem scanFold_none (rd : RevDict) (s : List Char) (dp : List DPState) (right : Nat) :
    ∀ (L : List Nat) (acc : Option Cand × (Nat × Nat)),
      ((List.foldl (scanStep rd s dp right) acc L).1 = none ↔
        (acc.1 = none ∧ ∀ j ∈ L, lookupW rd.map (slice s j (right + 1)) = none)) := by
  intro L
  induction L with
  | nil => intro acc; simp
  | cons j rest ih =>
    intro acc
    rw [List.foldl_cons, ih]
    constructor
    · rintro ⟨h1, h2⟩
      cases hlk : lookupW rd.map (slice s j (right + 1)) with
      | none =>
        have hacc : acc.1 = none := by simpa [scanStep, hlk] using h1
        refine ⟨hacc, fun j2 hj2 => ?_⟩
        rcases List.mem_cons.1 hj2 with h | h
        · rw [h]; exact hlk
        · exact h2 j2 h
      | some info =>
        exfalso
        cases hacc : acc.1 with
        | none => simp [scanStep, hlk, hacc] at h1
        | some b =>
          rw [scanStep] at h1
          simp only [hlk, hacc] at h1
          exact ite_some_ne_none h1
    · rintro ⟨hacc, h2⟩
      have hlk := h2 j (List.mem_cons_self j rest)
      refine ⟨by simp [scanStep, hlk, hacc], fun j2 hj2 => h2 j2 (List.mem_cons_of_mem j hj2)⟩

theorem scanLefts_none_iff (rd : RevDict) (s : List Char) (dp : List DPState) (right : Nat) :
    ((scanLefts rd s dp right).1 = none ↔ covB rd s (right + 1) = false) := by
  rw [scanLefts, scanFold_none]
  simp only [true_and, covB, List.any_eq_false]
  constructor
  · intro h j hj
    rw [h j hj]
    exact Bool.false_ne_true ∘ id
  · intro h j hj
    have := h j hj
    cases hx : lookupW rd.map (slice s j (right + 1)) with
    | none => rfl
    | some v => exact absurd (by rw [hx]; rfl) this

theorem dpLoop_error_iff (rd : RevDict) (s : List Char) :
    ∀ (rest : List Char) (right : Nat) (dp : List DPState),
      s.drop right = rest →
      ∀ (c : Char) (k : Nat),
      (dpLoop rd s rest right dp = .error (c, k) ↔
        (right ≤ k ∧ k < s.length ∧ s[k]? = some c ∧ covB rd s (k + 1) = false ∧
          ∀ i, right ≤ i → i < k → covB rd s (i + 1) = true)) := by
  intro rest
  induction rest with
  | nil =>
    intro right dp hdrop c k
    simp only [dpLoop]
    constructor
    · intro h; cases h
    · rintro ⟨h1, h2, _⟩
      exfalso
      have hl := congrArg List.length hdrop
      simp only [List.length_drop, List.length_nil] at hl
      omega
  | cons c0 rest ih =>
    intro right dp hdrop c k
    have hl := congrArg List.length hdrop
    simp only [List.length_drop, List.length_cons] at hl
    have hrlt : right < s.length := by omega
    have hget : s[right]? = some c0 := by
      have h0 : (s.drop right)[0]? = some c0 := by rw [hdrop]; simp
      rwa [List.getElem?_drop, Nat.add_zero] at h0
    have hdrop2 : s.drop (right + 1) = rest := by
      have : s.drop (right + 1) = (s.drop right).drop 1 := by
        rw [List.drop_drop]
      rw [this, hdrop]
      rfl
    simp only [dpLoop]
    cases hscan : scanLefts rd s dp right with
    | mk o range =>
      cases o with
      | some cand =>
        have hcov : covB rd s (right + 1) = true := by
          cases hc : covB rd s (right + 1)
          · have := (scanLefts_none_iff rd s dp right).2 hc
            rw [hscan] at this
            cases this
          · rfl
        rw [ih (right + 1) _ hdrop2 c k]
        constructor
        · rintro ⟨h1, h2, h3, h4, h5⟩
          refine ⟨by omega, h2, h3, h4, ?_⟩
          intro i hi1 hi2
          rcases Nat.eq_or_lt_of_le hi1 with h | h
          · rw [← h]; exact hcov
          · exact h5 i h hi2
        · rintro ⟨h1, h2, h3, h4, h5⟩
          have hkr : k ≠ right := by
            intro hkr
            rw [hkr] at h4
            rw [hcov] at h4
            cases h4
          exact ⟨by omega, h2, h3, h4, fun i hi1 hi2 => h5 i (by omega) hi2⟩
      | none =>
        have hncov : covB rd s (right + 1) = false := by
          apply (scanLefts_none_iff rd s dp right).1
          rw [hscan]
        constructor
        · intro h
          have hck : (c0, right) = (c, k) := by
            injection h
          have hc : c0 = c := congrArg Prod.fst hck
          have hk : right = k := congrArg Prod.snd hck
          subst hc; subst hk
          exact ⟨le_refl _, hrlt, hget, hncov, fun i hi1 hi2 => absurd hi2 (by omega)⟩
        · rintro ⟨h1, h2, h3, h4, h5⟩
          have hk : k = right := by
            rcases Nat.eq_or_lt_of_le h1 with h | h
            · omega
            · exfalso
              have := h5 right (le_refl _) h
              rw [this] at hncov
              cases hncov
          subst hk
          have hc : c0 = c := by
            rw [hget] at h3
            exact Option.some.inj h3
          rw [hc]

theorem dpLoop_ok_iff (rd : RevDict) (s : List Char) :
    ∀ (rest : List Char) (right : Nat) (dp : List DPState),
      s.drop right = rest →
      ((∃ out, dpLoop rd s rest right dp = .ok out) ↔
        ∀ i, right ≤ i → i < s.length → covB rd s (i + 1) = true) := by
  intro rest
  induction rest with
  | nil =>
    intro right dp hdrop
    have hl := congrArg List.length hdrop
    simp only [List.length_drop, List.length_nil] at hl
    simp only [dpLoop]
    constructor
    · intro _ i hi1 hi2
      exfalso; omega
    · intro _
      exact ⟨dp, rfl⟩
  | cons c0 rest ih =>
    intro right dp hdrop
    have hl := congrArg List.length hdrop
    simp only [List.length_drop, List.length_cons] at hl
    have hrlt : right < s.length := by omega
    have hdrop2 : s.drop (right + 1) = rest := by
      have h1 : s.drop (right + 1) = (s.drop right).drop 1 := by
        rw [List.drop_drop]
      rw [h1, hdrop]
      rfl
    simp only [dpLoop]
    cases hscan : scanLefts rd s dp right with
    | mk o range =>
      cases o with
      | some cand =>
        have hcov : covB rd s (right + 1) = true := by
          cases hc : covB rd s (right + 1)
          · have := (scanLefts_none_iff rd s dp right).2 hc
            rw [hscan] at this
            cases this
          · rfl
        rw [ih (right + 1) _ hdrop2]
        constructor
        · intro h i hi1 hi2
          rcases Nat.eq_or_lt_of_le hi1 with he | he
          · rw [← he]; exact hcov
          · exact h i he hi2
        · intro h i hi1 hi2
          exact h i (by omega) hi2
      | none =>
        have hncov : covB rd s (right + 1) = false := by
          apply (scanLefts_none_iff rd s dp right).1
          rw [hscan]
        constructor
        · rintro ⟨out, h⟩
          cases h
        · intro h
          exfalso
          have := h right (le_refl _) hrlt
          rw [this] at hncov
          cases hncov

/-- Claim C8: `shortest` fails, producing no partial fragment list, exactly
when some sentence end position is unreachable by any dictionary word; the
error carries the scalar at the first uncovered position together with its
0-based character index, and success means every position was covered. -/
theorem shortest_failure_iff_uncovered (rd : RevDict) (s : List Char) :
    (∀ c k, rd.shortest s = .error (c, k) ↔
      (k < s.length ∧ s[k]? = some c ∧ covB rd s (k + 1) = false ∧
        ∀ i, i < k → covB rd s (i + 1) = true)) ∧
    ((∃ out, rd.shortest s = .ok out) ↔
      ∀ i, i < s.length → covB rd s (i + 1) = true) := by
  have herr := dpLoop_error_iff rd s s 0 [baseState rd] rfl
  have hok := dpLoop_ok_iff rd s s 0 [baseState rd] rfl
  constructor
  · intro c k
    have hmatch : rd.shortest s = .error (c, k) ↔ shortestDP rd s = .error (c, k) := by
      rw [RevDict.shortest]
      cases hsd : shortestDP rd s with
      | error e =>
        constructor
        · intro h; injection h with h; rw [h]
        · intro h
          injection h with h
          rw [h]
      | ok dp =>
        constructor
        · intro h; cases h
        · intro h; cases h
    rw [hmatch, shortestDP, herr c k]
    constructor
    · rintro ⟨_, h2, h3, h4, h5⟩
      exact ⟨h2, h3, h4, fun i hi => h5 i (Nat.zero_le i) hi⟩
    · rintro ⟨h2, h3, h4, h5⟩
      exact ⟨Nat.zero_le k, h2, h3, h4, fun i _ hi => h5 i hi⟩
  · have hmatch : (∃ out, rd.shortest s = .ok out) ↔ ∃ dp, shortestDP rd s = .ok dp := by
      rw [RevDict.shortest]
      cases hsd : shortestDP rd s with
      | error e =>
        constructor
        · rintro ⟨out, h⟩; cases h
        · rintro ⟨dp, h⟩; cases h
      | ok dp =>
        constructor
        · intro _; exact ⟨dp, rfl⟩
        · intro _; exact ⟨_, rfl⟩
    rw [hmatch, shortestDP, hok]
    constructor
    · intro h i hi
      exact h i (Nat.zero_le i) hi
    · intro h i _ hi
      exact h i hi

/-- The characterization instantiated: with words `xy ↦ "ab"`, `W ↦ "abc"`,
`z ↦ "c"`, `x ↦ "p"`, the sentence `xq` fails exactly at the uncovered `q`
(index 1) while position 1 (the `x`) is covered. -/
theorem shortest_failure_iff_uncovered_witness :
    ((buildTrie [([97, 98], ['x', 'y']), ([97, 98, 99], ['W']), ([99], ['z']),
        ([112], ['x'])]).revDict).shortest ['x', 'q'] = .error ('q', 1) :=
  ((shortest_failure_iff_uncovered
      ((buildTrie [([97, 98], ['x', 'y']), ([97, 98, 99], ['W']), ([99], ['z']),
        ([112], ['x'])]).revDict) ['x', 'q']).1 'q' 1).mpr
    ⟨by decide, by decide, by decide, by
      intro i hi
      have h0 : i = 0 := Nat.lt_one_iff.1 hi
      rw [h0]
      decide⟩

/-! ## The DP's final cost against the spec's segmentation cost (claim C4) -/

/-- Claim C4 fails on the code: with words `xy ↦ "ab"`, `W ↦ "abc"`,
`z ↦ "c"`, `x ↦ "p"` and sentence `xyz`, the only segmentation into
dictionary words is `xy · z`, and the spec's local rule — evaluated with the
committed predecessor word `xy` — charges a disambiguating space, for a true
minimum of 4; the DP's final cost is 3, because the stored word range holds
only the stale single character `y` when the rule is evaluated. -/
theorem dp_final_cost_below_spec_minimum :
    dpFinalCost ((buildTrie [([97, 98], ['x', 'y']), ([97, 98, 99], ['W']), ([99], ['z']),
        ([112], ['x'])]).revDict) ['x', 'y', 'z'] = some 3 ∧
    specMinCost ((buildTrie [([97, 98], ['x', 'y']), ([97, 98, 99], ['W']), ([99], ['z']),
        ([112], ['x'])]).revDict) ['x', 'y', 'z'] = some 4 := ⟨rfl, rfl⟩

/-! What the final cost *does* equal: the total length of the fragments that
the backtracking phase recovers along the predecessor chain.  The DP table
satisfies: entry 0 is the base state, and every later entry's cost is its
predecessor's cost plus its own fragment's length. -/

theorem getD_append_left {l1 l2 : List DPState} {p : Nat} (hp : p < l1.length)
    (d : DPState) : (l1 ++ l2).getD p d = l1.getD p d := by
  rw [List.getD_eq_getElem?_getD, List.getD_eq_getElem?_getD,
    List.getElem?_append_left hp]

theorem scanStep_some (rd : RevDict) (s : List Char) (dp : List DPState) (right : Nat)
    (acc : Option Cand × (Nat × Nat)) (j : Nat) (hj : j ≤ right)
    (hacc : ∀ b, acc.1 = some b → b.prev ≤ right ∧
      b.sumLen = (dp.getD b.prev (baseState rd)).sumLen + b.code.length) :
    ∀ b, (scanStep rd s dp right acc j).1 = some b → b.prev ≤ right ∧
      b.sumLen = (dp.getD b.prev (baseState rd)).sumLen + b.code.length := by
  intro b hb
  simp only [scanStep] at hb
  cases hlk : lookupW rd.map (slice s j (right + 1)) with
  | none =>
    rw [hlk] at hb
    exact hacc b hb
  | some info =>
    rw [hlk] at hb
    cases hacc1 : acc.1 with
    | none =>
      rw [hacc1] at hb
      have hbe := (Option.some.inj hb).symm
      rw [hbe]
      refine ⟨hj, ?_⟩
      cases hbl : prefixBlank (dp.getD j (baseState rd)).node
          (slice s (dp.getD j (baseState rd)).range.1 (dp.getD j (baseState rd)).range.2)
          info.fullCode
      · simp [hbl]
      · simp [hbl, List.length_append]
        omega
    | some b0 =>
      simp only [hlk, hacc1] at hb
      split at hb
      · split at hb
        · have hbe := (Option.some.inj hb).symm
          rw [hbe]
          refine ⟨hj, ?_⟩
          simp only [List.length_append, List.length_cons, List.length_nil]
          omega
        · have hbe := (Option.some.inj hb).symm
          rw [hbe]
          exact hacc b0 hacc1
      · split at hb
        · have hbe := (Option.some.inj hb).symm
          rw [hbe]
          refine ⟨hj, ?_⟩
          simp only [List.length_append, List.length_nil, List.nil_append]
          omega
        · have hbe := (Option.some.inj hb).symm
          rw [hbe]
          exact hacc b0 hacc1

theorem scanLefts_some (rd : RevDict) (s : List Char) (dp : List DPState) (right : Nat) :
    ∀ cand, (scanLefts rd s dp right).1 = some cand → cand.prev ≤ right ∧
      cand.sumLen = (dp.getD cand.prev (baseState rd)).sumLen + cand.code.length := by
  rw [scanLefts]
  have hfold : ∀ (L : List Nat) (acc : Option Cand × (Nat × Nat)),
      (∀ j ∈ L, j ≤ right) →
      (∀ b, acc.1 = some b → b.prev ≤ right ∧
        b.sumLen = (dp.getD b.prev (baseState rd)).sumLen + b.code.length) →
      ∀ cand, (List.foldl (scanStep rd s dp right) acc L).1 = some cand →
        cand.prev ≤ right ∧
        cand.sumLen = (dp.getD cand.prev (baseState rd)).sumLen + cand.code.length := by
    intro L
    induction L with
    | nil => intro acc _ hacc cand h; exact hacc cand h
    | cons j rest ih =>
      intro acc hL hacc cand h
      rw [List.foldl_cons] at h
      exact ih _ (fun j2 hj2 => hL j2 (List.mem_cons_of_mem j hj2))
        (scanStep_some rd s dp right acc j (hL j (List.mem_cons_self j rest)) hacc) cand h
  intro cand h
  refine hfold (List.range (right + 1)) (none, (0, 0)) ?_ ?_ cand h
  · intro j hj
    have := List.mem_range.1 hj
    omega
  · intro b hb
    cases hb

theorem dpLoop_invariant (rd : RevDict) (s : List Char) :
    ∀ (rest : List Char) (right : Nat) (dp dpOut : List DPState),
      dpLoop rd s rest right dp = .ok dpOut →
      dp.length = right + 1 →
      dp[0]? = some (baseState rd) →
      (∀ i st, dp[i]? = some st → 1 ≤ i →
        st.prev < i ∧ st.sumLen = (dp.getD st.prev (baseState rd)).sumLen + st.code.length) →
      (dpOut[0]? = some (baseState rd) ∧ dp.length ≤ dpOut.length ∧
        (∀ i st, dpOut[i]? = some st → 1 ≤ i →
          st.prev < i ∧
          st.sumLen = (dpOut.getD st.prev (baseState rd)).sumLen + st.code.length)) := by
  intro rest
  induction rest with
  | nil =>
    intro right dp dpOut h hlen h0 hinv
    simp only [dpLoop] at h
    have he : dp = dpOut := by injection h
    rw [← he]
    exact ⟨h0, le_refl _, hinv⟩
  | cons c0 rest ih =>
    intro right dp dpOut h hlen h0 hinv
    simp only [dpLoop] at h
    cases hscan : scanLefts rd s dp right with
    | mk o range =>
      rw [hscan] at h
      cases o with
      | none => cases h
      | some cand =>
        have hc := scanLefts_some rd s dp right cand (by rw [hscan])
        have hprevlt : cand.prev < dp.length := by omega
        have h2 : dpLoop rd s rest (right + 1)
            (dp ++ [⟨cand.code, cand.prev, cand.sumLen, cand.node, range⟩]) = .ok dpOut := h
        have hside0 : (dp ++ [(⟨cand.code, cand.prev, cand.sumLen, cand.node, range⟩ :
            DPState)])[0]? = some (baseState rd) := by
          rw [List.getElem?_append_left (by omega)]
          exact h0
        have hsideInv : ∀ i st2, (dp ++ [(⟨cand.code, cand.prev, cand.sumLen, cand.node,
            range⟩ : DPState)])[i]? = some st2 → 1 ≤ i →
            st2.prev < i ∧ st2.sumLen =
              ((dp ++ [(⟨cand.code, cand.prev, cand.sumLen, cand.node, range⟩ :
                DPState)]).getD st2.prev (baseState rd)).sumLen + st2.code.length := by
          intro i st2 hi h1i
          by_cases hilt : i < dp.length
          · rw [List.getElem?_append_left hilt] at hi
            obtain ⟨ha, hb⟩ := hinv i st2 hi h1i
            refine ⟨ha, ?_⟩
            rw [hb, getD_append_left (by omega)]
          · have hieq : i = dp.length := by
              by_contra hne
              have hgt : dp.length + 1 ≤ i := by omega
              have hnone : (dp ++
                  [(⟨cand.code, cand.prev, cand.sumLen, cand.node, range⟩ : DPState)])[i]? =
                  none := by
                apply List.getElem?_eq_none
                simp only [List.length_append, List.length_cons, List.length_nil]
                omega
              rw [hnone] at hi
              cases hi
            have hsome : (dp ++ [⟨cand.code, cand.prev, cand.sumLen, cand.node, range⟩] :
                List DPState)[i]? =
                some ⟨cand.code, cand.prev, cand.sumLen, cand.node, range⟩ := by
              rw [hieq, List.getElem?_append_right (le_refl _)]
              simp
            rw [hsome] at hi
            have hst2 := (Option.some.inj hi).symm
            rw [hst2]
            refine ⟨by simpa using by omega, ?_⟩
            rw [getD_append_left hprevlt]
            exact hc.2
        obtain ⟨ha2, hb2, hc2⟩ := ih (right + 1)
          (dp ++ [⟨cand.code, cand.prev, cand.sumLen, cand.node, range⟩]) dpOut h2
          (by simp [hlen]) hside0 hsideInv
        refine ⟨ha2, ?_, hc2⟩
        simp only [List.length_append, List.length_cons, List.length_nil] at hb2
        omega

theorem backtrack_sum (rd : RevDict) (dp : List DPState)
    (h0 : dp[0]? = some (baseState rd))
    (hinv : ∀ i st, dp[i]? = some st → 1 ≤ i →
      st.prev < i ∧ st.sumLen = (dp.getD st.prev (baseState rd)).sumLen + st.code.length) :
    ∀ (fuel i : Nat), i < dp.length → i < fuel →
      ((backtrackFrom dp fuel i).map List.length).sum =
        (dp.getD i (baseState rd)).sumLen := by
  intro fuel
  induction fuel with
  | zero => intro i h1 h2; exact absurd h2 (Nat.not_lt_zero i)
  | succ f ih =>
    intro i h1 h2
    cases hdp : dp[i]? with
    | none =>
      exfalso
      rw [List.getElem?_eq_getElem h1] at hdp
      cases hdp
    | some st =>
      rw [backtrackFrom]
      simp only [hdp]
      have hgetD : dp.getD i (baseState rd) = st := by
        rw [List.getD_eq_getElem?_getD, hdp]
        rfl
      have hgetD0 : dp.getD 0 (baseState rd) = baseState rd := by
        rw [List.getD_eq_getElem?_getD, h0]
        rfl
      by_cases hp : st.prev = 0
      · rw [if_pos hp]
        simp only [List.map_cons, List.map_nil, List.sum_cons, List.sum_nil]
        rw [hgetD]
        rcases Nat.eq_zero_or_pos i with hz | hpos
        · rw [hz, h0] at hdp
          have hst := (Option.some.inj hdp).symm
          rw [hst]
          simp [baseState]
        · obtain ⟨_, hb⟩ := hinv i st hdp hpos
          rw [hb, hp, hgetD0]
          simp [baseState]
      · rw [if_neg hp]
        have h1i : 1 ≤ i := by
          by_contra hne
          have hz : i = 0 := by omega
          rw [hz, h0] at hdp
          have hst := (Option.some.inj hdp).symm
          rw [hst] at hp
          exact hp rfl
        obtain ⟨ha, hb⟩ := hinv i st hdp h1i
        simp only [List.map_cons, List.sum_cons]
        rw [ih st.prev (by omega) (by omega), hgetD, hb]
        exact Nat.add_comm _ _

/-- Claim C4, amended: on every success the final DP cost equals the total
length of the fragments recovered by backtracking the predecessor chain —
the typed length of the segmentation the code actually chose under its own
(stale-range) transition rule, rather than the spec's minimum over all
segmentations costed with the committed word. -/
theorem dp_final_eq_backtrack_length (rd : RevDict) (s : List Char) (dp : List DPState)
    (h : shortestDP rd s = .ok dp) :
    dp.getLast?.map DPState.sumLen =
      some (((backtrackFrom dp dp.length (dp.length - 1)).map List.length).sum) := by
  obtain ⟨h0, hlen, hinv⟩ := dpLoop_invariant rd s s 0 [baseState rd] dp h rfl rfl
    (by
      intro i st hi h1i
      rcases i with _ | i
      · omega
      · rw [List.getElem?_eq_none (by simp)] at hi
        cases hi)
  have hpos : 1 ≤ dp.length := le_trans (by simp) hlen
  have hbs := backtrack_sum rd dp h0 hinv dp.length (dp.length - 1) (by omega) (by omega)
  rw [hbs, List.getLast?_eq_getElem? dp,
    List.getElem?_eq_getElem (show dp.length - 1 < dp.length by omega)]
  rw [List.getD_eq_getElem?_getD,
    List.getElem?_eq_getElem (show dp.length - 1 < dp.length by omega)]
  rfl

/-- The amended statement instantiated: one word `N ↦ "n"`, sentence `N`; the
final cost 1 is the backtracked fragment `"n"`'s length. -/
theorem dp_final_eq_backtrack_length_witness :
    shortestDP ((buildTrie [([110], ['N'])]).revDict) ['N'] =
      .ok [⟨[], 0, 0, Trie.mk [] [] [Trie.mk [110] [['N']] []], (0, 0)⟩,
           ⟨[110], 0, 1, Trie.mk [110] [['N']] [], (0, 1)⟩] ∧
    ([⟨[], 0, 0, Trie.mk [] [] [Trie.mk [110] [['N']] []], (0, 0)⟩,
      ⟨[110], 0, 1, Trie.mk [110] [['N']] [], (0, 1)⟩] :
        List DPState).getLast?.map DPState.sumLen =
      some (((backtrackFrom
          [⟨[], 0, 0, Trie.mk [] [] [Trie.mk [110] [['N']] []], (0, 0)⟩,
           ⟨[110], 0, 1, Trie.mk [110] [['N']] [], (0, 1)⟩] 2 1).map List.length).sum) := by
  refine ⟨rfl, ?_⟩
  exact dp_final_eq_backtrack_length ((buildTrie [([110], ['N'])]).revDict)
    ['N'] _ rfl

end SmartDict
